import Mathlib

/-
Verification of the skills-sync client (src/src/sync/client.rs, cli.rs, main.rs).

The embedding models:
  * filesystem paths as a flag for absoluteness plus a list of components
    (Unix semantics of Rust `PathBuf`);
  * the zip archive as a list of named entries with string contents;
  * the on-disk state touched by `extract_zip` as an association list from
    paths to file contents, with directories implicit (a path is a directory
    when some file lives strictly below it);
  * the string manipulation of the source (`str::lines`, `split_once`,
    `replace('\\', "/")`, `find("---")`, the two regular expressions of
    `extract_description`) as executable functions on `List Char`.
-/

namespace SkillsSync

/-- A filesystem path: absoluteness flag plus components (Unix model of Rust `PathBuf`). -/
structure RPath where
  abs : Bool
  comps : List String
deriving DecidableEq, Repr

instance : Inhabited RPath := ⟨⟨false, []⟩⟩

/-- Rust `Path::join`: an absolute right-hand side replaces the base path. -/
def RPath.join (a b : RPath) : RPath :=
  if b.abs then b else ⟨a.abs, a.comps ++ b.comps⟩

/-- Append a single child component. -/
def RPath.child (p : RPath) (n : String) : RPath := ⟨p.abs, p.comps ++ [n]⟩

/-- Append a list of components. -/
def RPath.extend (p : RPath) (s : List String) : RPath := ⟨p.abs, p.comps ++ s⟩

/-- `p` is a proper ancestor directory of `q` (component-wise, same absoluteness). -/
def isAncestorOf (p q : RPath) : Bool :=
  (p.abs == q.abs) && p.comps.isPrefixOf q.comps && decide (p.comps.length < q.comps.length)

/-- Rust `Path::strip_prefix(home)` succeeds exactly when `home` is a
component-wise prefix with matching absoluteness. -/
def underHome (home p : RPath) : Bool :=
  (home.abs == p.abs) && home.comps.isPrefixOf p.comps

/-- `skill_file.strip_prefix(&home).unwrap_or(skill_file)` from `create_skills_zip`. -/
def stripPrefixOr (home p : RPath) : RPath :=
  if underHome home p then ⟨false, p.comps.drop home.comps.length⟩ else p

/- ### Character-level string helpers -/

/-- Split a character list at every occurrence of `c` (occurrences are dropped).
Always returns a nonempty list of pieces. -/
def splitOnChar (c : Char) : List Char → List (List Char)
  | [] => [[]]
  | x :: xs =>
    match splitOnChar c xs with
    | [] => [[]]
    | y :: ys => if x = c then [] :: y :: ys else (x :: y) :: ys

/-- Split at the first occurrence of `c`: Rust `str::split_once`. -/
def splitAtFirst (c : Char) : List Char → Option (List Char × List Char)
  | [] => none
  | x :: xs =>
    if x = c then some ([], xs)
    else (splitAtFirst c xs).map (fun p => (x :: p.1, p.2))

/-- Drop one trailing carriage return, as Rust `str::lines` does for `\r\n` endings. -/
def stripTrailingCR (l : List Char) : List Char :=
  if l.getLast? = some '\r' then l.dropLast else l

/-- Drop the final empty piece a trailing newline produces under `splitOnChar`. -/
def dropTrailingEmpty (parts : List (List Char)) : List (List Char) :=
  if parts.getLast? = some [] then parts.dropLast else parts

/-- Rust `str::lines`: split on `'\n'`, drop a final empty piece produced by a
trailing newline, strip one trailing `'\r'` from each line. -/
def rustLines (s : String) : List String :=
  (dropTrailingEmpty (splitOnChar '\n' s.data)).map (fun l => String.mk (stripTrailingCR l))

/-- Rust `line.split_once('=')`, producing strings. -/
def splitOnceEq (line : String) : Option (String × String) :=
  (splitAtFirst '=' line.data).map (fun p => (String.mk p.1, String.mk p.2))

/- ### Association lists (model of the source's HashMaps) -/

/-- `HashMap::get` on a model association list (first binding wins). -/
def alLookup : List (String × String) → String → Option String
  | [], _ => none
  | (k, v) :: rest, q => if k = q then some v else alLookup rest q

/-- `HashMap::insert`: replace any previous binding of `k`. -/
def alInsert (m : List (String × String)) (k v : String) : List (String × String) :=
  (k, v) :: m.filter (fun p => !(p.1 == k))

/-- Occurrence counter lookup: `name_count.entry(k).or_insert(0)` then read. -/
def countOf : List (String × Nat) → String → Nat
  | [], _ => 0
  | (k, v) :: rest, q => if k = q then v else countOf rest q

/-- `*count += 1` on the occurrence-counter map. -/
def bumpCount (m : List (String × Nat)) (k : String) : List (String × Nat) :=
  (k, countOf m k + 1) :: m.filter (fun p => !(p.1 == k))

/- ### The path / manifest-string codec -/

/-- A path component is well formed when it is nonempty and free of the path
separator, the manifest separator and line metacharacters. -/
def goodComp (s : String) : Bool :=
  !(s.data.isEmpty) &&
    s.data.all (fun c => !(c == '/' || c == '=' || c == '\n' || c == '\r' || c == '\\'))

/-- All components of a path are well formed. -/
def goodPath (p : RPath) : Bool := p.comps.all goodComp

/-- Join components with forward slashes, at the character level. -/
def joinComps : List String → List Char
  | [] => []
  | [s] => s.data
  | s :: rest => s.data ++ '/' :: joinComps rest

/-- The characters Rust renders for a path (`to_string_lossy`, Unix separators). -/
def pathChars (p : RPath) : List Char :=
  (if p.abs then ['/'] else []) ++ joinComps p.comps

/-- `relative.to_string_lossy().replace('\\', "/")` from `create_skills_zip`. -/
def manifestPathString (p : RPath) : String :=
  String.mk ((pathChars p).map (fun c => if c == '\\' then '/' else c))

/-- Whether a rendered path string starts with the root separator. -/
def headIsSlash : List Char → Bool
  | [] => false
  | c :: _ => c == '/'

/-- How `home_dir.join(original_path)` consumes a manifest path string (Unix
`Path` semantics: a leading slash makes it absolute, empty components collapse). -/
def parseRustPath (s : String) : RPath :=
  ⟨headIsSlash s.data, ((splitOnChar '/' s.data).filter (fun l => !(l.isEmpty))).map String.mk⟩

/- ### The archive builder (`create_skills_zip`) -/

/-- One entry of the zip archive: its name and its uncompressed bytes. -/
structure ZipEntry where
  name : String
  content : String
deriving DecidableEq, Repr

/-- A skill file handed to `create_skills_zip`: its on-disk path and the bytes
`fs::read` returns for it. -/
structure SkillFile where
  path : RPath
  content : String
deriving DecidableEq, Repr

instance : Inhabited SkillFile := ⟨⟨⟨false, []⟩, ""⟩⟩

/-- The owning directory name of a skill file:
`parent().file_name()`, with the source's `"unknown"` fallback. -/
def skill_name_of (p : RPath) : String :=
  match p.comps.dropLast.getLast? with
  | some n => n
  | none => "unknown"

/-- Entry-name assignment: first occurrence of a name gets `name.md`,
the k-th repeat gets `name_k.md`. -/
def entryNameFor (name : String) (count : Nat) : String :=
  if count = 0 then name ++ ".md" else name ++ "_" ++ toString count ++ ".md"

/-- Accumulated state of the packaging loop of `create_skills_zip`. -/
structure BuildState where
  counts : List (String × Nat)
  entries : List ZipEntry
  manifestLines : List String

/-- One iteration of the packaging loop body of `create_skills_zip`. -/
def addSkillFile (home : RPath) (st : BuildState) (f : SkillFile) : BuildState :=
  let name := skill_name_of f.path
  let newFilename := entryNameFor name (countOf st.counts name)
  let relStr := manifestPathString (stripPrefixOr home f.path)
  ⟨bumpCount st.counts name,
   st.entries ++ [⟨newFilename, f.content⟩],
   st.manifestLines ++ [newFilename ++ "=" ++ relStr]⟩

/-- `writeln!` serialization of the manifest: every line followed by a newline. -/
def manifestTextOf (lines : List String) : String :=
  String.mk (lines.foldr (fun l acc => l.data ++ '\n' :: acc) [])

/-- `create_skills_zip`: skill entries in input order, then the final
`manifest.txt` entry holding the accumulated manifest lines. -/
def create_skills_zip (home : RPath) (files : List SkillFile) : List ZipEntry :=
  (files.foldl (addSkillFile home) ⟨[], [], []⟩).entries
    ++ [⟨"manifest.txt",
         manifestTextOf (files.foldl (addSkillFile home) ⟨[], [], []⟩).manifestLines⟩]

/-- The entry name the builder gives the first file of each owning name. -/
def mdNameOf (f : SkillFile) : String := skill_name_of f.path ++ ".md"

/-- The manifest line the builder records for a file (collision-free case). -/
def lineOf (home : RPath) (f : SkillFile) : String :=
  mdNameOf f ++ "=" ++ manifestPathString (stripPrefixOr home f.path)

/- ### The archive restorer (`extract_zip`) -/

/-- `archive.by_name("manifest.txt")`: contents of the manifest entry, empty
when absent (in which case the file map stays empty, as in the source). -/
def manifestContentOf (ar : List ZipEntry) : String :=
  match ar.find? (fun e => e.name == "manifest.txt") with
  | some e => e.content
  | none => ""

/-- Parse manifest lines: split each at the first `=`; lines without `=` are
dropped; later lines overwrite earlier bindings (`HashMap::insert`). -/
def parseManifestLines (ls : List String) : List (String × String) :=
  ls.foldl (fun m line =>
    match splitOnceEq line with
    | some kv => alInsert m kv.1 kv.2
    | none => m) []

/-- The file map `extract_zip` builds from `manifest.txt`. -/
def parseManifest (text : String) : List (String × String) :=
  parseManifestLines (rustLines text)

/-- The on-disk state `extract_zip` touches: an association list from paths to
file contents. Directories are implicit: a path is a directory exactly when
some file lives strictly below it. -/
abbrev FS := List (RPath × String)

/-- File content at a path (first binding wins). -/
def FS.lookup : FS → RPath → Option String
  | [], _ => none
  | (p, c) :: rest, q => if p = q then some c else FS.lookup rest q

/-- `full_path.exists()` in the implicit-directory model. -/
def FS.existsAt (fs : FS) (p : RPath) : Bool :=
  fs.any (fun e => decide (e.1 = p) || isAncestorOf p e.1)

/-- `full_path.is_dir()` in the implicit-directory model. -/
def FS.isDirAt (fs : FS) (p : RPath) : Bool :=
  fs.any (fun e => isAncestorOf p e.1)

/-- `fs::remove_dir_all`: drop the path and everything below it. -/
def FS.removeSubtree (fs : FS) (p : RPath) : FS :=
  fs.filter (fun e => !(decide (e.1 = p) || isAncestorOf p e.1))

/-- `fs::remove_file`. -/
def FS.removeFileAt (fs : FS) (p : RPath) : FS :=
  fs.filter (fun e => !(decide (e.1 = p)))

/-- `fs::File::create` plus `io::copy`: (re)create the file with the entry's
bytes; `fs::create_dir_all` on the parent is a no-op for implicit directories. -/
def FS.writeFileAt (fs : FS) (p : RPath) (c : String) : FS := (p, c) :: fs

/-- The loop body of `extract_zip` for one destination: remove a pre-existing
directory recursively or a file singly, then write the entry's bytes. -/
def applyWrite (fs : FS) (p : RPath) (c : String) : FS :=
  FS.writeFileAt
    (if fs.existsAt p then
       (if fs.isDirAt p then fs.removeSubtree p else fs.removeFileAt p)
     else fs) p c

/-- Where one archive entry is restored: `none` for the manifest entry and for
entries without a manifest mapping; otherwise `home_dir.join(original_path)`. -/
def entryDest (home : RPath) (fm : List (String × String)) (e : ZipEntry) : Option RPath :=
  if e.name = "manifest.txt" then none
  else (alLookup fm e.name).map (fun o => RPath.join home (parseRustPath o))

/-- `extract_zip`. The `_targetDir` argument is received and ignored, exactly as
the `_target_dir` parameter is in the source. -/
def extract_zip (home _targetDir : RPath) (ar : List ZipEntry) (fs : FS) : FS :=
  ar.foldl (fun fs2 e =>
    match entryDest home (parseManifest (manifestContentOf ar)) e with
    | none => fs2
    | some d => applyWrite fs2 d e.content) fs

/-- The sequence of `(destination, bytes)` writes `extract_zip` performs. -/
def extract_writes (home : RPath) (ar : List ZipEntry) : List (RPath × String) :=
  ar.filterMap (fun e =>
    (entryDest home (parseManifest (manifestContentOf ar)) e).map
      (fun d => (d, e.content)))

/-- Replay a list of writes. -/
def applyWrites (fs : FS) (ws : List (RPath × String)) : FS :=
  ws.foldl (fun fs2 w => applyWrite fs2 w.1 w.2) fs

/- ### Write-sequence lemmas -/

/-- A path is touched by a write list when some write lands at it or strictly
above it. -/
def touchedBy (ws : List (RPath × String)) (q : RPath) : Bool :=
  ws.any (fun w => decide (w.1 = q) || isAncestorOf w.1 q)

/-- The `(entry name, recorded relative path)` pairs the builder writes into the
manifest when owning names are pairwise distinct. -/
def manifestPairsOf (home : RPath) (files : List SkillFile) : List (String × String) :=
  files.map (fun f => (mdNameOf f, manifestPathString (stripPrefixOr home f.path)))

/- ### Further helpers for the claims -/

/-- Neither path is a proper ancestor directory of the other. -/
def incomparable (p q : RPath) : Bool :=
  !(isAncestorOf p q) && !(isAncestorOf q p)

/- ### C10: files outside the home directory -/

/-- Home directory used by the C10 counterexample. -/
def c10home : RPath := ⟨true, ["home", "u"]⟩

/-- A skill file with a relative path (for example discovered under a
user-supplied relative directory), hence not under the home directory. -/
def c10file : SkillFile := ⟨⟨false, ["w", "proj", "SKILL.md"]⟩, "X"⟩

/- ### C2: uniqueness and bijectivity of the manifest mapping -/

/-- Home directory of the C2 counterexample. -/
def c2home : RPath := ⟨true, ["home", "u"]⟩

/-- Three skill files whose owning directories are named `foo`, `foo`, `foo_1`:
the collision counter gives the second file the entry name `foo_1.md`, which
collides with the first occurrence of the name `foo_1`. -/
def c2files : List SkillFile :=
  [⟨⟨true, ["home", "u", "a", "foo", "SKILL.md"]⟩, "x"⟩,
   ⟨⟨true, ["home", "u", "b", "foo", "SKILL.md"]⟩, "y"⟩,
   ⟨⟨true, ["home", "u", "c", "foo_1", "SKILL.md"]⟩, "z"⟩]

/- ### C3: the per-name collision counter -/

/-- Entry names the packaging loop produces, threading the per-name counter. -/
def namesWith (cnt : String → Nat) : List SkillFile → List String
  | [] => []
  | f :: rest =>
    entryNameFor (skill_name_of f.path) (cnt (skill_name_of f.path))
      :: namesWith (fun n => if n = skill_name_of f.path then cnt n + 1 else cnt n) rest

/-- The claim's description of the i-th entry name: the i-th owning name paired
with the number of its occurrences among the earlier files. -/
def expectedEntryName (files : List SkillFile) (i : Nat) : String :=
  entryNameFor (skill_name_of ((files.getD i default).path))
    (((files.take i).map (fun f => skill_name_of f.path)).count
      (skill_name_of ((files.getD i default).path)))

/- ### C7: discovery (`scan_skill_files`) -/

/-- A directory tree: files carry contents; directories carry a named child list. -/
inductive FTree where
  | file (content : String) : FTree
  | dir (children : List (String × FTree)) : FTree

/-- First child with the given name. -/
def findChild : List (String × FTree) → String → Option FTree
  | [], _ => none
  | (n, t) :: rest, q => if n = q then some t else findChild rest q

/-- The node reached by following a component list. -/
def nodeAt : FTree → List String → Option FTree
  | t, [] => some t
  | .file _, _ :: _ => none
  | .dir cs, n :: s =>
    match findChild cs n with
    | none => none
    | some t => nodeAt t s

/-- `WalkDir` entries strictly below a node, depth first, each directory before
its contents, descending at most `d` more levels. -/
def walkNode : Nat → RPath → FTree → List RPath
  | 0, _, _ => []
  | _ + 1, _, .file _ => []
  | d + 1, base, .dir cs =>
    cs.flatMap (fun nt => RPath.child base nt.1 :: walkNode d (RPath.child base nt.1) nt.2)

/-- The file-name filter of the scan: exactly `SKILL.md` or exactly `skill.md`. -/
def nameMatches (p : RPath) : Bool :=
  decide (p.comps.getLast? = some "SKILL.md")
    || decide (p.comps.getLast? = some "skill.md")

/-- `scan_skill_files`: the name-filtered bounded walk of each root, roots in
order; a root that does not exist (`none`) is skipped without error. -/
def scan_skill_files (roots : List (RPath × Option FTree)) : List RPath :=
  roots.flatMap (fun r =>
    match r.2 with
    | none => []
    | some t => (walkNode 3 r.1 t).filter nameMatches)

/-- Whether a tree node is a regular file. -/
def isFile : FTree → Bool
  | .file _ => true
  | .dir _ => false

/-- No duplicate names in a directory listing. -/
def nodupNames : List String → Bool
  | [] => true
  | n :: rest => !(rest.contains n) && nodupNames rest

/-- Real-filesystem well-formedness down to `d` levels below a node: sibling
names are pairwise distinct. -/
def wfTo : Nat → FTree → Bool
  | 0, _ => true
  | _ + 1, .file _ => true
  | d + 1, .dir cs => nodupNames (cs.map Prod.fst) && cs.all (fun nt => wfTo d nt.2)

/-- The root tree of the C7 counterexample: a directory — not a file — named
`SKILL.md` sits at depth 1 under the scanned root. -/
def c7tree : FTree := .dir [("SKILL.md", .dir [])]

/- ### C8: the global server option (cli.rs, main.rs) -/

/-- The parsed command line: the global `-s` (long form `--server`) option is declared
`Option<String>` with no default value (src/src/sync/cli.rs). -/
structure Cli where
  server : Option String

/-- The server value `run_sync_client` (src/src/main.rs) forwards to the
command handlers: `cli.server` itself — no fallback is substituted anywhere on
this path. -/
def server_used (cli : Cli) : Option String := cli.server

/- ### C9: `extract_description` -/

/-- ASCII whitespace, as in the regex class `\s` and `str::trim`. -/
def myIsWS (c : Char) : Bool :=
  c = ' ' || c = '\t' || c = '\n' || c = '\r' || c = '\x0b' || c = '\x0c'

/-- Trim leading and trailing whitespace (Rust `str::trim`). -/
def trimChars (l : List Char) : List Char :=
  ((l.dropWhile myIsWS).reverse.dropWhile myIsWS).reverse

/-- Index of the first occurrence of `pat` as a contiguous subsequence
(Rust `str::find` with a string pattern). -/
def findSubIdx (pat : List Char) : List Char → Option Nat
  | [] => if pat.isEmpty then some 0 else none
  | c :: rest =>
    if pat.isPrefixOf (c :: rest) then some 0
    else (findSubIdx pat rest).map (fun i => i + 1)

/-- The slice between the first `---` and the next `---` after it
(`content.find("---")` twice in `extract_description`). -/
def frontMatterSlice (content : List Char) : Option (List Char) :=
  match findSubIdx ['-', '-', '-'] content with
  | none => none
  | some i =>
    match findSubIdx ['-', '-', '-'] (content.drop (i + 3)) with
    | none => none
    | some j => some ((content.drop (i + 3)).take j)

/-- Whether a line starts with whitespace (a YAML continuation line). -/
def isIndented (l : List Char) : Bool :=
  match l with
  | c :: _ => myIsWS c
  | [] => false

/-- Modelled from the spec: the `serde_yaml` deserialization of the
front-matter block into `SkillMetadata` (external library code, absent from
src). Per the spec, a well-formed block yields its `description` field: here a
top-level `description:` line whose plain value is the rest of the line
trimmed; a literal block scalar (`|`) collects the following indented nonempty
lines joined by newlines; an empty value (YAML null) leaves the field unset. -/
def descLoop : List (List Char) → Option String
  | [] => none
  | l :: rest =>
    if ("description:".data).isPrefixOf l then
      if trimChars (l.drop 12) = ['|'] then
        some (String.mk (List.intercalate ['\n']
          ((rest.takeWhile (fun l2 => isIndented l2 && !(trimChars l2).isEmpty)).map
            trimChars)))
      else if (trimChars (l.drop 12)).isEmpty then none
      else some (String.mk (trimChars (l.drop 12)))
    else descLoop rest

/-- Modelled from the spec: the description field of a front-matter block. -/
def yaml_description (block : List Char) : Option String :=
  descLoop (splitOnChar '\n' block)

/-- Clean-up applied to a front-matter description: split into lines, trim
each, join with single spaces, take the first 100 characters. -/
def collapse_desc (d : String) : String :=
  String.mk ((List.intercalate [' ']
    ((rustLines d).map (fun l => trimChars l.data))).take 100)

/-- The capture of `\s*([^\n]+)` — with `needNL` set, of `\s*\n\s*([^\n]+)` —
including the regex engine's greedy backtracking into trailing whitespace at
end of input. -/
def captureTail (needNL : Bool) (cs : List Char) : Option (List Char) :=
  match cs.drop (cs.takeWhile myIsWS).length with
  | [] =>
    match (cs.takeWhile myIsWS).reverse.dropWhile (fun c => c = '\n') with
    | [] => none
    | c :: r2 => if needNL && !(r2.contains '\n') then none else some [c]
  | _ :: _ =>
    if needNL && !((cs.takeWhile myIsWS).contains '\n') then none
    else some ((cs.drop (cs.takeWhile myIsWS).length).takeWhile (fun c => !(c = '\n')))

/-- Try `##\s*(?:Description|描述)\s*\n\s*([^\n]+)` at this position. -/
def matchHeadingAt (cs : List Char) : Option (List Char) :=
  match cs with
  | '#' :: '#' :: rest =>
    if ("Description".data).isPrefixOf (rest.dropWhile myIsWS) then
      captureTail true ((rest.dropWhile myIsWS).drop 11)
    else if ("描述".data).isPrefixOf (rest.dropWhile myIsWS) then
      captureTail true ((rest.dropWhile myIsWS).drop 2)
    else none
  | _ => none

/-- Leftmost match of the heading pattern. -/
def scanHeading : List Char → Option (List Char)
  | [] => none
  | c :: rest =>
    match matchHeadingAt (c :: rest) with
    | some cap => some cap
    | none => scanHeading rest

/-- Try `\[!?description\]:\s*([^\n]+)` at this position. -/
def matchMarkerAt (cs : List Char) : Option (List Char) :=
  match cs with
  | '[' :: rest =>
    match rest with
    | '!' :: r2 =>
      if ("description]:".data).isPrefixOf r2 then captureTail false (r2.drop 13)
      else none
    | _ =>
      if ("description]:".data).isPrefixOf rest then captureTail false (rest.drop 13)
      else none
  | _ => none

/-- Leftmost match of the marker pattern. -/
def scanMarker : List Char → Option (List Char)
  | [] => none
  | c :: rest =>
    match matchMarkerAt (c :: rest) with
    | some cap => some cap
    | none => scanMarker rest

/-- Stage 1 of `extract_description`: the front-matter description field. -/
def stage_yaml (content : String) : Option String :=
  match frontMatterSlice content.data with
  | none => none
  | some block => yaml_description block

/-- Stage 2a: a `## Description` / `## 描述` heading (capture, trimmed). -/
def stage_heading (content : String) : Option String :=
  (scanHeading content.data).map (fun cap => String.mk (trimChars cap))

/-- Stage 2b: an inline `[description]:` marker (capture, trimmed). -/
def stage_marker (content : String) : Option String :=
  (scanMarker content.data).map (fun cap => String.mk (trimChars cap))

/-- Eligibility of a trimmed line in stage 3: nonempty and not a heading,
front-matter delimiter, or recognized front-matter key. -/
def plainLineOk (t : List Char) : Bool :=
  match t with
  | [] => false
  | _ :: _ =>
    !(("#".data).isPrefixOf t) && !(("---".data).isPrefixOf t)
      && !(("name:".data).isPrefixOf t) && !(("description:".data).isPrefixOf t)
      && !(("allowed-tools:".data).isPrefixOf t) && !(("metadata:".data).isPrefixOf t)

/-- Stage 3 iteration: the first eligible line, truncated to 80 characters. -/
def firstPlain : List String → Option String
  | [] => none
  | l :: rest =>
    if plainLineOk (trimChars l.data) then
      some (String.mk ((trimChars l.data).take 80))
    else firstPlain rest

/-- Stage 3 of `extract_description`. -/
def stage_plain (content : String) : Option String :=
  firstPlain (rustLines content)

/-- `extract_description`: the four-stage fallback chain of the source. -/
def extract_description (content : String) : String :=
  match stage_yaml content with
  | some d => collapse_desc d
  | none =>
    match stage_heading content with
    | some d => d
    | none =>
      match stage_marker content with
      | some d => d
      | none =>
        match stage_plain content with
        | some d => d
        | none => "No description"

/-! ### Theorems -/

/- ### Basic lemmas about the helpers -/

theorem splitOnChar_ne_nil (c : Char) (l : List Char) : splitOnChar c l ≠ [] := by
  cases l with
  | nil => simp [splitOnChar]
  | cons x xs =>
    simp only [splitOnChar]
    cases h : splitOnChar c xs with
    | nil => simp
    | cons y ys => by_cases hx : x = c <;> simp [hx]

theorem splitOnChar_cons_self (c : Char) (l : List Char) :
    splitOnChar c (c :: l) = [] :: splitOnChar c l := by
  simp only [splitOnChar]
  cases h : splitOnChar c l with
  | nil => exact absurd h (splitOnChar_ne_nil c l)
  | cons y ys => simp

theorem splitOnChar_cons_ne (c x : Char) (l : List Char) (hx : x ≠ c) :
    ∃ y ys, splitOnChar c l = y :: ys ∧ splitOnChar c (x :: l) = (x :: y) :: ys := by
  simp only [splitOnChar]
  cases h : splitOnChar c l with
  | nil => exact absurd h (splitOnChar_ne_nil c l)
  | cons y ys => exact ⟨y, ys, rfl, by simp [hx]⟩

theorem splitOnChar_no_occ (c : Char) (l : List Char) (h : ¬ c ∈ l) :
    splitOnChar c l = [l] := by
  induction l with
  | nil => rfl
  | cons x xs ih =>
    have hx : x ≠ c := by rintro rfl; exact h (List.mem_cons_self x xs)
    obtain ⟨y, ys, h1, h2⟩ := splitOnChar_cons_ne c x xs hx
    have := ih (fun hm => h (List.mem_cons_of_mem x hm))
    rw [this] at h1
    cases h1
    simpa using h2

theorem splitOnChar_append_cons (c : Char) (l rest : List Char) (h : ¬ c ∈ l) :
    splitOnChar c (l ++ c :: rest) = l :: splitOnChar c rest := by
  induction l with
  | nil => simpa using splitOnChar_cons_self c rest
  | cons x xs ih =>
    have hx : x ≠ c := by rintro rfl; exact h (List.mem_cons_self x xs)
    have hxs := ih (fun hm => h (List.mem_cons_of_mem x hm))
    obtain ⟨y, ys, h1, h2⟩ := splitOnChar_cons_ne c x (xs ++ c :: rest) hx
    rw [hxs] at h1
    cases h1
    simpa using h2

theorem splitAtFirst_no_occ (c : Char) (l : List Char) (h : ¬ c ∈ l) :
    splitAtFirst c l = none := by
  induction l with
  | nil => rfl
  | cons x xs ih =>
    have hx : x ≠ c := by rintro rfl; exact h (List.mem_cons_self x xs)
    simp [splitAtFirst, hx, ih (fun hm => h (List.mem_cons_of_mem x hm))]

theorem splitAtFirst_append_cons (c : Char) (k v : List Char) (h : ¬ c ∈ k) :
    splitAtFirst c (k ++ c :: v) = some (k, v) := by
  induction k with
  | nil => simp [splitAtFirst]
  | cons x xs ih =>
    have hx : x ≠ c := by rintro rfl; exact h (List.mem_cons_self x xs)
    simp [splitAtFirst, hx, ih (fun hm => h (List.mem_cons_of_mem x hm))]

theorem alLookup_insert_self (m : List (String × String)) (k v : String) :
    alLookup (alInsert m k v) k = some v := by
  simp [alInsert, alLookup]

theorem alLookup_insert_other (m : List (String × String)) (k v q : String) (h : k ≠ q) :
    alLookup (alInsert m k v) q = alLookup m q := by
  simp only [alInsert, alLookup, if_neg h]
  induction m with
  | nil => rfl
  | cons p rest ih =>
    by_cases hp : p.1 = k
    · simp only [List.filter]
      rw [show (!(p.1 == k)) = false by simp [hp]]
      rw [ih]
      cases p with
      | mk a b =>
        simp only [alLookup]
        simp at hp
        rw [if_neg (by rw [hp]; exact h)]
    · simp only [List.filter]
      rw [show (!(p.1 == k)) = true by simp [hp]]
      cases p with
      | mk a b => simp only [alLookup]; by_cases hq : a = q <;> simp [hq, ih]

theorem countOf_bump_self (m : List (String × Nat)) (k : String) :
    countOf (bumpCount m k) k = countOf m k + 1 := by
  simp [bumpCount, countOf]

theorem countOf_filter_ne (m : List (String × Nat)) (k q : String) (h : k ≠ q) :
    countOf (m.filter (fun p => !(p.1 == k))) q = countOf m q := by
  induction m with
  | nil => rfl
  | cons p rest ih =>
    by_cases hp : p.1 = k
    · simp only [List.filter]
      rw [show (!(p.1 == k)) = false by simp [hp]]
      rw [ih]
      cases p with
      | mk a b =>
        simp only [countOf]
        simp at hp
        rw [if_neg (by rw [hp]; exact h)]
    · simp only [List.filter]
      rw [show (!(p.1 == k)) = true by simp [hp]]
      cases p with
      | mk a b => simp only [countOf]; by_cases hq : a = q <;> simp [hq, ih]

theorem countOf_bump_other (m : List (String × Nat)) (k q : String) (h : k ≠ q) :
    countOf (bumpCount m k) q = countOf m q := by
  simp only [bumpCount, countOf, if_neg h]
  exact countOf_filter_ne m k q h

theorem stringMk_data (s : String) : String.mk s.data = s := by cases s; rfl

theorem dataAppend (a b : String) : (a ++ b).data = a.data ++ b.data := by
  cases a; cases b; rfl

theorem goodComp_ne_nil {s : String} (h : goodComp s = true) : s.data ≠ [] := by
  simp only [goodComp, Bool.and_eq_true, Bool.not_eq_true'] at h
  exact fun hn => by simp [hn, List.isEmpty] at h

theorem goodComp_not_mem {s : String} (h : goodComp s = true) {c : Char}
    (hc : c ∈ s.data) : c ≠ '/' ∧ c ≠ '=' ∧ c ≠ '\n' ∧ c ≠ '\r' ∧ c ≠ '\\' := by
  simp only [goodComp, Bool.and_eq_true, List.all_eq_true] at h
  have := h.2 c hc
  simp only [Bool.not_eq_true', Bool.or_eq_false_iff, beq_eq_false_iff_ne] at this
  exact ⟨this.1.1.1.1, this.1.1.1.2, this.1.1.2, this.1.2, this.2⟩

theorem mem_joinComps {c : Char} :
    ∀ {comps : List String}, c ∈ joinComps comps → c = '/' ∨ ∃ s ∈ comps, c ∈ s.data
  | [], h => by simp [joinComps] at h
  | [s], h => Or.inr ⟨s, by simp, by simpa [joinComps] using h⟩
  | s :: r :: rest, h => by
    simp only [joinComps, List.mem_append, List.mem_cons] at h
    rcases h with h | h | h
    · exact Or.inr ⟨s, by simp, h⟩
    · exact Or.inl h
    · rcases mem_joinComps h with h2 | ⟨t, ht, hc⟩
      · exact Or.inl h2
      · exact Or.inr ⟨t, by simp [ht], hc⟩

theorem splitOnChar_joinComps {comps : List String}
    (h : ∀ s ∈ comps, goodComp s = true) (hne : comps ≠ []) :
    splitOnChar '/' (joinComps comps) = comps.map String.data := by
  induction comps with
  | nil => exact absurd rfl hne
  | cons s rest ih =>
    cases rest with
    | nil =>
      have : ¬ '/' ∈ s.data := fun hm =>
        (goodComp_not_mem (h s (by simp)) hm).1 rfl
      simp [joinComps, splitOnChar_no_occ _ _ this]
    | cons r rest2 =>
      have hs : ¬ '/' ∈ s.data := fun hm =>
        (goodComp_not_mem (h s (by simp)) hm).1 rfl
      have step := splitOnChar_append_cons '/' s.data (joinComps (r :: rest2)) hs
      simp only [joinComps] at step ⊢
      rw [step, ih (fun t ht => h t (by simp [ht])) (by simp)]
      simp

theorem data_mk (l : List Char) : (String.mk l).data = l := rfl

theorem map_noop {l : List Char} (h : ∀ c ∈ l, c ≠ '\\') :
    l.map (fun c => if c == '\\' then '/' else c) = l := by
  induction l with
  | nil => rfl
  | cons x xs ih =>
    have hx := h x (List.mem_cons_self x xs)
    simp only [List.map_cons, ih (fun c hc => h c (List.mem_cons_of_mem x hc))]
    simp [hx]

theorem map_mk_data : ∀ (l : List String), (l.map String.data).map String.mk = l
  | [] => rfl
  | s :: rest => by simp [map_mk_data rest, stringMk_data]

theorem headIsSlash_joinComps {comps : List String}
    (h : ∀ s ∈ comps, goodComp s = true) : headIsSlash (joinComps comps) = false := by
  cases comps with
  | nil => rfl
  | cons s rest =>
    have hs := h s (by simp)
    cases hd : s.data with
    | nil => exact absurd hd (goodComp_ne_nil hs)
    | cons c t =>
      have hc : c ≠ '/' := (goodComp_not_mem hs (by rw [hd]; simp)).1
      cases rest with
      | nil => simp [joinComps, hd, headIsSlash, hc]
      | cons r rest2 => simp [joinComps, hd, headIsSlash, hc]

theorem parse_comps {comps : List String} (h : ∀ s ∈ comps, goodComp s = true) :
    ((splitOnChar '/' (joinComps comps)).filter (fun l => !(l.isEmpty))).map String.mk
      = comps := by
  cases hc : comps with
  | nil => rfl
  | cons s rest =>
    rw [← hc]
    rw [splitOnChar_joinComps h (by rw [hc]; exact List.cons_ne_nil s rest)]
    have hkeep : ∀ l ∈ comps.map String.data, (!(l.isEmpty)) = true := by
      intro l hl
      obtain ⟨s2, hs2, rfl⟩ := List.mem_map.mp hl
      have := goodComp_ne_nil (h s2 hs2)
      simpa [List.isEmpty_iff] using this
    rw [List.filter_eq_self.mpr hkeep, map_mk_data]

theorem parse_manifestPathString {p : RPath} (hg : goodPath p = true) :
    parseRustPath (manifestPathString p) = p := by
  obtain ⟨ab, comps⟩ := p
  have hgc : ∀ s ∈ comps, goodComp s = true := by
    simpa [goodPath, List.all_eq_true] using hg
  have hnb : ∀ c ∈ pathChars ⟨ab, comps⟩, c ≠ '\\' := by
    intro c hc
    simp only [pathChars, List.mem_append] at hc
    rcases hc with hc | hc
    · cases ab with
      | false => simp at hc
      | true =>
        simp at hc
        subst hc
        decide
    · rcases mem_joinComps hc with rfl | ⟨s, hs, hcs⟩
      · decide
      · exact (goodComp_not_mem (hgc s hs) hcs).2.2.2.2
  unfold manifestPathString parseRustPath
  rw [data_mk, map_noop hnb]
  cases ab with
  | false =>
    have hpc : pathChars ⟨false, comps⟩ = joinComps comps := by simp [pathChars]
    rw [hpc, headIsSlash_joinComps hgc, parse_comps hgc]
  | true =>
    have hpc : pathChars ⟨true, comps⟩ = '/' :: joinComps comps := by simp [pathChars]
    rw [hpc, splitOnChar_cons_self]
    have : (([] : List Char) :: splitOnChar '/' (joinComps comps)).filter
        (fun l => !(l.isEmpty)) = (splitOnChar '/' (joinComps comps)).filter
        (fun l => !(l.isEmpty)) := by simp [List.filter]
    rw [this]
    have h2 := parse_comps hgc
    simp only [headIsSlash]
    rw [h2]
    simp

theorem join_strip_of_under {home p : RPath} (h : underHome home p = true) :
    RPath.join home (stripPrefixOr home p) = p := by
  have h2 := h
  simp only [underHome, Bool.and_eq_true, beq_iff_eq] at h2
  obtain ⟨habs, hpre⟩ := h2
  obtain ⟨t, ht⟩ := List.isPrefixOf_iff_prefix.mp hpre
  have hs : stripPrefixOr home p = ⟨false, p.comps.drop home.comps.length⟩ := by
    simp [stripPrefixOr, h]
  rw [hs]
  simp only [RPath.join]
  rw [if_neg (by simp)]
  rw [← ht, List.drop_left, habs, ht]

theorem join_of_abs (a : RPath) {b : RPath} (h : b.abs = true) : RPath.join a b = b := by
  simp [RPath.join, h]

theorem goodPath_strip {home p : RPath} (h : goodPath p = true) :
    goodPath (stripPrefixOr home p) = true := by
  unfold stripPrefixOr
  by_cases hu : underHome home p = true
  · rw [if_pos hu]
    simp only [goodPath, List.all_eq_true] at h ⊢
    exact fun s hs => h s (List.drop_subset _ _ hs)
  · rw [if_neg hu]; exact h

theorem string_data_inj {a b : String} (h : a.data = b.data) : a = b := by
  rw [← stringMk_data a, ← stringMk_data b, h]

theorem append_md_inj {a b : String} (h : a ++ ".md" = b ++ ".md") : a = b := by
  apply string_data_inj
  have h2 := congrArg String.data h
  rw [dataAppend, dataAppend] at h2
  exact List.append_cancel_right h2

theorem mdName_ne_manifest (s : String) : s ++ ".md" ≠ "manifest.txt" := by
  intro h
  have h2 := congrArg String.data h
  rw [dataAppend] at h2
  have h3 := congrArg List.getLast? h2
  rw [show (".md" : String).data = ['.', 'm', 'd'] from rfl] at h3
  rw [show s.data ++ ['.', 'm', 'd'] = (s.data ++ ['.', 'm']) ++ ['d'] by simp] at h3
  rw [List.getLast?_concat] at h3
  rw [show ("manifest.txt" : String).data.getLast? = some 't' from rfl] at h3
  exact absurd (Option.some.inj h3) (by decide)

/- ### Manifest serialization round trip -/

theorem splitOnChar_manifestText (lines : List String)
    (h : ∀ l ∈ lines, ¬ '\n' ∈ l.data) :
    splitOnChar '\n' (lines.foldr (fun l acc => l.data ++ '\n' :: acc) [])
      = lines.map String.data ++ [[]] := by
  induction lines with
  | nil => rfl
  | cons l rest ih =>
    simp only [List.foldr]
    rw [splitOnChar_append_cons '\n' l.data _ (h l (by simp))]
    rw [ih (fun x hx => h x (by simp [hx]))]
    simp

theorem rustLines_manifestTextOf (lines : List String)
    (h1 : ∀ l ∈ lines, ¬ '\n' ∈ l.data)
    (h2 : ∀ l ∈ lines, l.data.getLast? ≠ some '\r') :
    rustLines (manifestTextOf lines) = lines := by
  unfold rustLines manifestTextOf dropTrailingEmpty
  rw [data_mk, splitOnChar_manifestText lines h1]
  rw [if_pos (List.getLast?_concat _)]
  rw [List.dropLast_concat]
  have : ∀ l ∈ lines.map String.data, stripTrailingCR l = l := by
    intro l hl
    obtain ⟨s, hs, rfl⟩ := List.mem_map.mp hl
    simp [stripTrailingCR, h2 s hs]
  rw [List.map_congr_left (fun l hl => by rw [this l hl])]
  exact map_mk_data lines

/- ### Fold characterization of the builder when owning names are distinct -/

theorem build_fold_char (home : RPath) :
    ∀ (files : List SkillFile) (st : BuildState),
      (files.map (fun f => skill_name_of f.path)).Nodup →
      (∀ f ∈ files, countOf st.counts (skill_name_of f.path) = 0) →
      (files.foldl (addSkillFile home) st).entries
          = st.entries ++ files.map (fun f => (⟨mdNameOf f, f.content⟩ : ZipEntry))
        ∧ (files.foldl (addSkillFile home) st).manifestLines
          = st.manifestLines ++ files.map (lineOf home)
  | [], st, _, _ => by simp
  | f :: rest, st, hnd, hz => by
    have hzf := hz f (by simp)
    have step : addSkillFile home st f =
        ⟨bumpCount st.counts (skill_name_of f.path),
         st.entries ++ [⟨mdNameOf f, f.content⟩],
         st.manifestLines ++ [lineOf home f]⟩ := by
      simp [addSkillFile, hzf, entryNameFor, mdNameOf, lineOf]
    have hnotin : skill_name_of f.path ∉ rest.map (fun g => skill_name_of g.path) := by
      simp only [List.map_cons, List.nodup_cons] at hnd
      exact hnd.1
    have hfresh : ∀ g ∈ rest,
        countOf (bumpCount st.counts (skill_name_of f.path)) (skill_name_of g.path) = 0 := by
      intro g hg
      have hne : skill_name_of f.path ≠ skill_name_of g.path := by
        intro he
        exact hnotin (he ▸ List.mem_map_of_mem (fun x => skill_name_of x.path) hg)
      rw [countOf_bump_other _ _ _ hne]
      exact hz g (by simp [hg])
    have hnd2 : (rest.map (fun g => skill_name_of g.path)).Nodup := by
      simp only [List.map_cons, List.nodup_cons] at hnd
      exact hnd.2
    have ih := build_fold_char home rest (addSkillFile home st f) hnd2 (by rw [step]; exact hfresh)
    rw [List.foldl_cons]
    refine ⟨?_, ?_⟩
    · rw [ih.1, step]; simp
    · rw [ih.2, step]; simp

/-- With pairwise-distinct owning names, `create_skills_zip` produces one `name.md`
entry per file in input order, followed by the manifest entry. -/
theorem create_char (home : RPath) (files : List SkillFile)
    (hnd : (files.map (fun f => skill_name_of f.path)).Nodup) :
    create_skills_zip home files
      = files.map (fun f => (⟨mdNameOf f, f.content⟩ : ZipEntry))
        ++ [⟨"manifest.txt", manifestTextOf (files.map (lineOf home))⟩] := by
  have h := build_fold_char home files ⟨[], [], []⟩ hnd (fun f _ => rfl)
  unfold create_skills_zip
  rw [h.1, h.2]
  simp

theorem applyWrites_cons (fs : FS) (w : RPath × String) (ws : List (RPath × String)) :
    applyWrites fs (w :: ws) = applyWrites (applyWrite fs w.1 w.2) ws := rfl

theorem extract_foldl_eq_writes (home : RPath) (fm : List (String × String))
    (ar : List ZipEntry) :
    ∀ fs : FS,
      ar.foldl (fun fs2 e =>
        match entryDest home fm e with
        | none => fs2
        | some d => applyWrite fs2 d e.content) fs
      = applyWrites fs (ar.filterMap (fun e =>
          (entryDest home fm e).map (fun d => (d, e.content)))) := by
  induction ar with
  | nil => intro fs; rfl
  | cons e rest ih =>
    intro fs
    cases h : entryDest home fm e with
    | none => simp only [List.foldl_cons, List.filterMap_cons, h, Option.map_none']; exact ih fs
    | some d =>
      simp only [List.foldl_cons, List.filterMap_cons, h, Option.map_some']
      rw [applyWrites_cons]
      exact ih (applyWrite fs d e.content)

theorem extract_zip_eq_applyWrites (home t : RPath) (ar : List ZipEntry) (fs : FS) :
    extract_zip home t ar fs = applyWrites fs (extract_writes home ar) :=
  extract_foldl_eq_writes home _ ar fs

/- ### Lookup after a write -/

theorem lookup_cons (p : RPath) (c : String) (rest : FS) (q : RPath) :
    FS.lookup ((p, c) :: rest) q = if p = q then some c else FS.lookup rest q := rfl

theorem lookup_mem {fs : FS} {q : RPath} {v : String}
    (h : FS.lookup fs q = some v) : (q, v) ∈ fs := by
  induction fs with
  | nil => simp [FS.lookup] at h
  | cons e rest ih =>
    cases e with
    | mk p c =>
      by_cases hp : p = q
      · subst hp
        rw [lookup_cons, if_pos rfl] at h
        rw [← Option.some.inj h]
        exact List.mem_cons_self _ _
      · rw [lookup_cons, if_neg hp] at h
        exact List.mem_cons_of_mem _ (ih h)

theorem lookup_filter_none {fs : FS} {q : RPath} {pr : RPath × String → Bool}
    (h : ∀ v, pr (q, v) = false) : FS.lookup (fs.filter pr) q = none := by
  induction fs with
  | nil => rfl
  | cons e rest ih =>
    cases e with
    | mk p c =>
      by_cases hp : p = q
      · subst hp
        rw [List.filter_cons, h c]
        simpa using ih
      · rw [List.filter_cons]
        cases hpr : pr (p, c) with
        | false => simpa using ih
        | true =>
          rw [if_pos rfl, lookup_cons, if_neg hp]
          exact ih

theorem lookup_filter_keep {fs : FS} {q : RPath} {pr : RPath × String → Bool}
    (h : ∀ v, pr (q, v) = true) : FS.lookup (fs.filter pr) q = FS.lookup fs q := by
  induction fs with
  | nil => rfl
  | cons e rest ih =>
    cases e with
    | mk p c =>
      by_cases hp : p = q
      · subst hp
        rw [List.filter_cons, if_pos (h c)]
        rw [lookup_cons, if_pos rfl, lookup_cons, if_pos rfl]
      · rw [List.filter_cons]
        cases hpr : pr (p, c) with
        | false =>
          rw [if_neg (by simp)]
          rw [lookup_cons, if_neg hp]
          exact ih
        | true =>
          rw [if_pos rfl, lookup_cons, if_neg hp, lookup_cons, if_neg hp]
          exact ih

/-- The net effect of one extraction write on the visible file contents:
the destination holds the new bytes, everything strictly below the destination
is gone, everything else is untouched. -/
theorem lookup_applyWrite (fs : FS) (d q : RPath) (c : String) :
    FS.lookup (applyWrite fs d c) q =
      if q = d then some c
      else if isAncestorOf d q then none
      else FS.lookup fs q := by
  by_cases hq : q = d
  · subst hq
    rw [if_pos rfl]
    show FS.lookup ((q, c) :: _) q = some c
    rw [lookup_cons, if_pos rfl]
  · rw [if_neg hq]
    have step : FS.lookup (applyWrite fs d c) q =
        FS.lookup (if fs.existsAt d then
          (if fs.isDirAt d then fs.removeSubtree d else fs.removeFileAt d) else fs) q := by
      show FS.lookup ((d, c) :: _) q = _
      rw [lookup_cons, if_neg (fun he => hq he.symm)]
    rw [step]
    by_cases han : isAncestorOf d q = true
    · rw [if_pos han]
      by_cases hex : fs.existsAt d = true
      · rw [if_pos hex]
        by_cases hdir : fs.isDirAt d = true
        · rw [if_pos hdir]
          simp only [FS.removeSubtree]
          apply lookup_filter_none
          intro v
          simp [hq, han]
        · rw [if_neg hdir]
          have hnone : FS.lookup fs q = none := by
            cases hl : FS.lookup fs q with
            | none => rfl
            | some v =>
              exfalso
              apply hdir
              exact List.any_eq_true.mpr ⟨(q, v), lookup_mem hl, han⟩
          simp only [FS.removeFileAt]
          rw [lookup_filter_keep (fun v => by simp [hq])]
          exact hnone
      · rw [if_neg hex]
        cases hl : FS.lookup fs q with
        | none => rfl
        | some v =>
          exfalso
          apply hex
          exact List.any_eq_true.mpr ⟨(q, v), lookup_mem hl, by simp [han]⟩
    · have hanf : isAncestorOf d q = false := by simpa using han
      rw [if_neg han]
      by_cases hex : fs.existsAt d = true
      · rw [if_pos hex]
        by_cases hdir : fs.isDirAt d = true
        · rw [if_pos hdir]
          simp only [FS.removeSubtree]
          apply lookup_filter_keep
          intro v
          simp [hq, hanf]
        · rw [if_neg hdir]
          simp only [FS.removeFileAt]
          apply lookup_filter_keep
          intro v
          simp [hq]
      · rw [if_neg hex]

theorem lookup_applyWrites_untouched {ws : List (RPath × String)} {q : RPath}
    (h : touchedBy ws q = false) :
    ∀ fs : FS, FS.lookup (applyWrites fs ws) q = FS.lookup fs q := by
  induction ws with
  | nil => intro fs; rfl
  | cons w rest ih =>
    intro fs
    simp only [touchedBy, List.any_cons, Bool.or_eq_false_iff] at h
    have hne : q ≠ w.1 := by
      intro he
      have := h.1.1
      simp [he] at this
    have han : isAncestorOf w.1 q = false := h.1.2
    rw [applyWrites_cons, ih (by simpa [touchedBy] using h.2)]
    rw [lookup_applyWrite, if_neg hne, han]
    simp

theorem lookup_applyWrites_touched {ws : List (RPath × String)} {q : RPath}
    (h : touchedBy ws q = true) :
    ∀ fs fs2 : FS, FS.lookup (applyWrites fs ws) q = FS.lookup (applyWrites fs2 ws) q := by
  induction ws with
  | nil => simp [touchedBy] at h
  | cons w rest ih =>
    intro fs fs2
    by_cases hr : touchedBy rest q = true
    · rw [applyWrites_cons, applyWrites_cons]
      exact ih hr _ _
    · have hrf : touchedBy rest q = false := by simpa using hr
      rw [applyWrites_cons, applyWrites_cons,
        lookup_applyWrites_untouched hrf, lookup_applyWrites_untouched hrf,
        lookup_applyWrite, lookup_applyWrite]
      by_cases hq : q = w.1
      · rw [if_pos hq, if_pos hq]
      · have hw : (decide (w.1 = q) || isAncestorOf w.1 q) = true := by
          simp only [touchedBy, List.any_cons] at h
          rcases Bool.or_eq_true_iff.mp h with h2 | h2
          · exact h2
          · exact absurd h2 (by simp [touchedBy] at hrf ⊢; exact hrf)
        have han : isAncestorOf w.1 q = true := by
          rcases Bool.or_eq_true_iff.mp hw with h2 | h2
          · exact absurd (of_decide_eq_true h2) (fun he => hq he.symm)
          · exact h2
        rw [if_neg hq, if_neg hq, han]
        simp

/-- After replaying writes with pairwise-distinct, ancestor-incomparable
destinations, each destination holds exactly its written bytes. -/
theorem lookup_applyWrites_of_mem :
    ∀ (ws : List (RPath × String)) (fs : FS) (d : RPath) (c : String),
      (d, c) ∈ ws →
      (ws.map Prod.fst).Nodup →
      List.Pairwise (fun w1 w2 =>
        isAncestorOf w1.1 w2.1 = false ∧ isAncestorOf w2.1 w1.1 = false) ws →
      FS.lookup (applyWrites fs ws) d = some c
  | [], _, _, _, hm, _, _ => by simp at hm
  | w :: rest, fs, d, c, hm, hnd, hpw => by
    rcases List.mem_cons.mp hm with he | he
    · subst he
      have hnotin : d ∉ rest.map Prod.fst := by
        simp only [List.map_cons, List.nodup_cons] at hnd
        exact hnd.1
      have huntouched : touchedBy rest d = false := by
        apply Bool.eq_false_iff.mpr
        intro ht
        obtain ⟨w2, hw2, hw2t⟩ := List.any_eq_true.mp ht
        rcases Bool.or_eq_true_iff.mp hw2t with h2 | h2
        · exact hnotin (of_decide_eq_true h2 ▸ List.mem_map_of_mem Prod.fst hw2)
        · have := (List.pairwise_cons.mp hpw).1 w2 hw2
          rw [this.2] at h2
          exact Bool.false_ne_true h2
      rw [applyWrites_cons, lookup_applyWrites_untouched huntouched,
        lookup_applyWrite, if_pos rfl]
    · rw [applyWrites_cons]
      exact lookup_applyWrites_of_mem rest _ d c he
        (by simp only [List.map_cons, List.nodup_cons] at hnd; exact hnd.2)
        (List.pairwise_cons.mp hpw).2

/- ### Well-formedness of built manifest lines -/

theorem skill_name_good {p : RPath} (hg : goodPath p = true) :
    goodComp (skill_name_of p) = true ∨ skill_name_of p = "unknown" := by
  unfold skill_name_of
  cases h : p.comps.dropLast.getLast? with
  | none => exact Or.inr rfl
  | some n =>
    left
    have hmem : n ∈ p.comps :=
      List.dropLast_subset _ (List.mem_of_getLast?_eq_some h)
    simp only [goodPath, List.all_eq_true] at hg
    exact hg n hmem

theorem goodName_chars {s : String} (h : goodComp s = true ∨ s = "unknown") :
    ∀ c ∈ s.data, c ≠ '=' ∧ c ≠ '\n' ∧ c ≠ '\r' := by
  intro c hc
  rcases h with h | rfl
  · have h2 := goodComp_not_mem h hc
    exact ⟨h2.2.1, h2.2.2.1, h2.2.2.2.1⟩
  · rw [show ("unknown" : String).data = ['u', 'n', 'k', 'n', 'o', 'w', 'n'] from rfl] at hc
    fin_cases hc <;> decide

theorem mdNameOf_chars {f : SkillFile} (hg : goodPath f.path = true) :
    ∀ c ∈ (mdNameOf f).data, c ≠ '=' ∧ c ≠ '\n' ∧ c ≠ '\r' := by
  intro c hc
  rw [mdNameOf, dataAppend] at hc
  rcases List.mem_append.mp hc with hc | hc
  · exact goodName_chars (skill_name_good hg) c hc
  · rw [show (".md" : String).data = ['.', 'm', 'd'] from rfl] at hc
    fin_cases hc <;> decide

theorem manifestPathString_chars {p : RPath} (hg : goodPath p = true) :
    ∀ c ∈ (manifestPathString p).data, c ≠ '\n' ∧ c ≠ '\r' := by
  intro c hc
  rw [manifestPathString, data_mk] at hc
  obtain ⟨c0, hc0, hrepl⟩ := List.mem_map.mp hc
  have hgc : ∀ s ∈ p.comps, goodComp s = true := by
    simpa [goodPath, List.all_eq_true] using hg
  have hc0ok : c0 = '/' ∨ (c0 ≠ '\n' ∧ c0 ≠ '\r') := by
    simp only [pathChars, List.mem_append] at hc0
    rcases hc0 with hc0 | hc0
    · cases hb : p.abs with
      | false => rw [hb] at hc0; simp at hc0
      | true =>
        rw [hb] at hc0
        simp at hc0
        exact Or.inl hc0
    · rcases mem_joinComps hc0 with h2 | ⟨s, hs, hcs⟩
      · exact Or.inl h2
      · have h3 := goodComp_not_mem (hgc s hs) hcs
        exact Or.inr ⟨h3.2.2.1, h3.2.2.2.1⟩
  by_cases hb : c0 = '\\'
  · rw [← hrepl, if_pos (by simp [hb])]
    decide
  · rw [← hrepl, if_neg (by simp [hb])]
    rcases hc0ok with rfl | h2
    · decide
    · exact h2

theorem lineOf_data (home : RPath) (f : SkillFile) :
    (lineOf home f).data
      = (mdNameOf f).data ++ '=' :: (manifestPathString (stripPrefixOr home f.path)).data := by
  unfold lineOf
  rw [dataAppend, dataAppend]
  have : ("=" : String).data = ['='] := rfl
  rw [this]
  simp

theorem lineOf_wf (home : RPath) (f : SkillFile) (hg : goodPath f.path = true) :
    ¬ '\n' ∈ (lineOf home f).data ∧ (lineOf home f).data.getLast? ≠ some '\r' := by
  have hrel := manifestPathString_chars (@goodPath_strip home _ hg)
  constructor
  · intro hc
    rw [lineOf_data] at hc
    rcases List.mem_append.mp hc with hc | hc
    · exact (mdNameOf_chars hg '\n' hc).2.1 rfl
    · rcases List.mem_cons.mp hc with hc | hc
      · exact absurd hc.symm (by decide)
      · exact (hrel '\n' hc).1 rfl
  · rw [lineOf_data]
    cases hr : (manifestPathString (stripPrefixOr home f.path)).data with
    | nil =>
      rw [show (mdNameOf f).data ++ '=' :: ([] : List Char)
        = (mdNameOf f).data ++ ['='] from rfl]
      rw [List.getLast?_concat]
      decide
    | cons c0 rest =>
      rw [List.getLast?_append_of_ne_nil _ (by simp : ('=' :: c0 :: rest) ≠ [])]
      intro hcontra
      have hmem := List.mem_of_getLast?_eq_some hcontra
      rcases List.mem_cons.mp hmem with h2 | h2
      · exact absurd h2 (by decide)
      · have hm : '\r' ∈ (manifestPathString (stripPrefixOr home f.path)).data := by
          rw [hr]
          exact h2
        exact (hrel '\r' hm).2 rfl

/- ### Parsing the built manifest back -/

theorem splitOnceEq_line {k v : String} (hk : ¬ '=' ∈ k.data) :
    splitOnceEq (k ++ "=" ++ v) = some (k, v) := by
  unfold splitOnceEq
  have hdata : (k ++ "=" ++ v).data = k.data ++ '=' :: v.data := by
    rw [dataAppend, dataAppend]
    have : ("=" : String).data = ['='] := rfl
    rw [this]
    simp
  rw [hdata, splitAtFirst_append_cons _ _ _ hk]
  simp [stringMk_data]

theorem lookup_foldl_lines_notin :
    ∀ (ps : List (String × String)) (m : List (String × String)) (q : String),
      q ∉ ps.map Prod.fst →
      (∀ p ∈ ps, ¬ '=' ∈ p.1.data) →
      alLookup ((ps.map (fun p => p.1 ++ "=" ++ p.2)).foldl
        (fun m line => match splitOnceEq line with
          | some kv => alInsert m kv.1 kv.2
          | none => m) m) q = alLookup m q
  | [], m, q, _, _ => rfl
  | p :: rest, m, q, hq, hfree => by
    rw [List.map_cons, List.foldl_cons, splitOnceEq_line (hfree p (by simp))]
    rw [lookup_foldl_lines_notin rest _ q (fun h2 => hq (by simp [h2]))
      (fun g hg2 => hfree g (by simp [hg2]))]
    exact alLookup_insert_other m p.1 p.2 q (fun he => hq (by simp [← he]))

theorem lookup_foldl_lines :
    ∀ (ps : List (String × String)) (m : List (String × String)) (k v : String),
      (∀ p ∈ ps, ¬ '=' ∈ p.1.data) →
      (ps.map Prod.fst).Nodup →
      (k, v) ∈ ps →
      alLookup ((ps.map (fun p => p.1 ++ "=" ++ p.2)).foldl
        (fun m line => match splitOnceEq line with
          | some kv => alInsert m kv.1 kv.2
          | none => m) m) k = some v
  | [], _, _, _, _, _, hm => by simp at hm
  | p :: rest, m, k, v, hfree, hnd, hm => by
    rw [List.map_cons, List.foldl_cons, splitOnceEq_line (hfree p (by simp))]
    rcases List.mem_cons.mp hm with he | he
    · subst he
      rw [lookup_foldl_lines_notin rest _ k
        (by simp only [List.map_cons, List.nodup_cons] at hnd; exact hnd.1)
        (fun g hg2 => hfree g (by simp [hg2]))]
      exact alLookup_insert_self m k v
    · exact lookup_foldl_lines rest _ k v (fun g hg2 => hfree g (by simp [hg2]))
        (by simp only [List.map_cons, List.nodup_cons] at hnd; exact hnd.2) he

/- ### Destination of a packaged file -/

theorem dest_eq_path {home : RPath} {f : SkillFile}
    (hg : goodPath f.path = true)
    (hcase : underHome home f.path = true ∨ f.path.abs = true) :
    RPath.join home (parseRustPath (manifestPathString (stripPrefixOr home f.path)))
      = f.path := by
  rw [parse_manifestPathString (@goodPath_strip home _ hg)]
  by_cases hu : underHome home f.path = true
  · exact join_strip_of_under hu
  · rcases hcase with h | h
    · exact absurd h hu
    · rw [stripPrefixOr, if_neg hu]
      exact join_of_abs home h

/- ### Extracting the archive that the builder produced -/

theorem manifestContentOf_create (home : RPath) (files : List SkillFile)
    (hnd : (files.map (fun f => skill_name_of f.path)).Nodup) :
    manifestContentOf (create_skills_zip home files)
      = manifestTextOf (files.map (lineOf home)) := by
  rw [create_char home files hnd]
  unfold manifestContentOf
  rw [List.find?_append]
  have h1 : (files.map (fun f => (⟨mdNameOf f, f.content⟩ : ZipEntry))).find?
      (fun e => e.name == "manifest.txt") = none := by
    rw [List.find?_eq_none]
    intro e he
    obtain ⟨f, hf, rfl⟩ := List.mem_map.mp he
    simpa [mdNameOf] using mdName_ne_manifest (skill_name_of f.path)
  rw [h1]
  simp [List.find?]

theorem lines_eq_pairs (home : RPath) (files : List SkillFile) :
    files.map (lineOf home)
      = (manifestPairsOf home files).map (fun p => p.1 ++ "=" ++ p.2) := by
  rw [manifestPairsOf, List.map_map]
  rfl

theorem mdNames_nodup {files : List SkillFile}
    (hnd : (files.map (fun f => skill_name_of f.path)).Nodup) :
    (files.map mdNameOf).Nodup := by
  have hinj : Function.Injective (fun s => s ++ ".md") := fun a b h => append_md_inj h
  have : files.map mdNameOf
      = (files.map (fun f => skill_name_of f.path)).map (fun s => s ++ ".md") := by
    rw [List.map_map]
    rfl
  rw [this]
  exact hnd.map hinj

theorem parseManifest_create (home : RPath) (files : List SkillFile)
    (hg : ∀ f ∈ files, goodPath f.path = true)
    (hnd : (files.map (fun f => skill_name_of f.path)).Nodup) :
    ∀ f ∈ files,
      alLookup (parseManifest (manifestContentOf (create_skills_zip home files)))
        (mdNameOf f)
        = some (manifestPathString (stripPrefixOr home f.path)) := by
  intro f hf
  rw [manifestContentOf_create home files hnd]
  unfold parseManifest
  rw [rustLines_manifestTextOf _
    (fun l hl => by
      obtain ⟨g, hg2, rfl⟩ := List.mem_map.mp hl
      exact (lineOf_wf home g (hg g hg2)).1)
    (fun l hl => by
      obtain ⟨g, hg2, rfl⟩ := List.mem_map.mp hl
      exact (lineOf_wf home g (hg g hg2)).2)]
  rw [lines_eq_pairs]
  unfold parseManifestLines
  apply lookup_foldl_lines
  · intro p hp
    obtain ⟨g, hg2, rfl⟩ := List.mem_map.mp hp
    exact fun hc => (mdNameOf_chars (hg g hg2) '=' hc).1 rfl
  · have : (manifestPairsOf home files).map Prod.fst = files.map mdNameOf := by
      rw [manifestPairsOf, List.map_map]
      rfl
    rw [this]
    exact mdNames_nodup hnd
  · exact List.mem_map_of_mem _ hf

theorem filterMap_congr_some {α β : Type} {F : α → Option β} {G : α → β} :
    ∀ {l : List α}, (∀ a ∈ l, F a = some (G a)) → l.filterMap F = l.map G
  | [], _ => rfl
  | a :: rest, h => by
    rw [List.filterMap_cons, h a (by simp), List.map_cons,
      filterMap_congr_some (fun b hb => h b (by simp [hb]))]

/-- Master round-trip lemma: the writes `extract_zip` performs on the archive
`create_skills_zip` built are exactly one write of the original bytes at each
original path, in input order. Requires pairwise-distinct owning names,
well-formed components, and each file either under the home directory or at an
absolute path. -/
theorem extract_writes_create (home : RPath) (files : List SkillFile)
    (hg : ∀ f ∈ files, goodPath f.path = true)
    (hcase : ∀ f ∈ files, underHome home f.path = true ∨ f.path.abs = true)
    (hnd : (files.map (fun f => skill_name_of f.path)).Nodup) :
    extract_writes home (create_skills_zip home files)
      = files.map (fun f => (f.path, f.content)) := by
  have hfm := parseManifest_create home files hg hnd
  have hchar := create_char home files hnd
  unfold extract_writes
  rw [hchar] at hfm ⊢
  rw [List.filterMap_append, List.filterMap_map]
  have hman : List.filterMap (fun e =>
      (entryDest home (parseManifest (manifestContentOf
        (files.map (fun f => (⟨mdNameOf f, f.content⟩ : ZipEntry))
          ++ [⟨"manifest.txt", manifestTextOf (files.map (lineOf home))⟩]))) e).map
        (fun d => (d, e.content)))
      [⟨"manifest.txt", manifestTextOf (files.map (lineOf home))⟩] = [] := by
    simp [entryDest]
  rw [hman, List.append_nil]
  apply filterMap_congr_some
  intro f hf
  show (entryDest home _ ⟨mdNameOf f, f.content⟩).map (fun d => (d, f.content))
    = some (f.path, f.content)
  rw [entryDest, if_neg (by simpa [mdNameOf] using mdName_ne_manifest (skill_name_of f.path))]
  rw [hfm f hf]
  rw [Option.map_some', Option.map_some']
  rw [dest_eq_path (hg f hf) (hcase f hf)]

theorem strip_inj {home p q : RPath}
    (hp : underHome home p = true ∨ p.abs = true)
    (hq : underHome home q = true ∨ q.abs = true)
    (he : stripPrefixOr home p = stripPrefixOr home q) : p = q := by
  by_cases hup : underHome home p = true
  · by_cases huq : underHome home q = true
    · rw [stripPrefixOr, if_pos hup, stripPrefixOr, if_pos huq] at he
      have hdp := congrArg RPath.comps he
      simp only at hdp
      have hup2 := hup
      have huq2 := huq
      simp only [underHome, Bool.and_eq_true, beq_iff_eq] at hup2 huq2
      obtain ⟨tp, htp⟩ := List.isPrefixOf_iff_prefix.mp hup2.2
      obtain ⟨tq, htq⟩ := List.isPrefixOf_iff_prefix.mp huq2.2
      have hcp : p.comps = home.comps ++ p.comps.drop home.comps.length := by
        rw [← htp, List.drop_left]
      have hcq : q.comps = home.comps ++ q.comps.drop home.comps.length := by
        rw [← htq, List.drop_left]
      cases p with
      | mk pa pc =>
        cases q with
        | mk qa qc =>
          simp only at hcp hcq hdp hup2 huq2
          have : pc = qc := by rw [hcp, hcq, hdp]
          subst this
          have : pa = qa := by rw [← hup2.1, ← huq2.1]
          subst this
          rfl
    · rcases hq with h | h
      · exact absurd h huq
      · exfalso
        rw [stripPrefixOr, if_pos hup, stripPrefixOr, if_neg huq] at he
        have := congrArg RPath.abs he
        simp only at this
        rw [h] at this
        exact Bool.false_ne_true this
  · rcases hp with h | h
    · exact absurd h hup
    · by_cases huq : underHome home q = true
      · exfalso
        rw [stripPrefixOr, if_neg hup, stripPrefixOr, if_pos huq] at he
        have := congrArg RPath.abs he
        simp only at this
        rw [h] at this
        exact Bool.false_ne_true this.symm
      · rw [stripPrefixOr, if_neg hup, stripPrefixOr, if_neg huq] at he
        exact he

theorem mps_inj {a b : RPath} (ha : goodPath a = true) (hb : goodPath b = true)
    (h : manifestPathString a = manifestPathString b) : a = b := by
  have h2 := congrArg parseRustPath h
  rwa [parse_manifestPathString ha, parse_manifestPathString hb] at h2

theorem paths_nodup {files : List SkillFile}
    (hnd : (files.map (fun f => skill_name_of f.path)).Nodup) :
    (files.map (fun f => f.path)).Nodup := by
  have h2 : files.map (fun f => skill_name_of f.path)
      = (files.map (fun f => f.path)).map skill_name_of := by
    rw [List.map_map]
    rfl
  exact List.Nodup.of_map skill_name_of (h2 ▸ hnd)

/- ### C4, C5, C6: properties of `extract_zip` alone -/

/-- C4: for every archive, extracting twice against the same home yields the
same visible file contents at every path as extracting once; and at every path
at or below some manifest-determined destination, the result is independent of
whatever pre-existed there (full replacement, never a merge). -/
theorem c4_idempotent_replace (home target : RPath) (ar : List ZipEntry) :
    (∀ (fs : FS) (q : RPath),
       FS.lookup (extract_zip home target ar (extract_zip home target ar fs)) q
         = FS.lookup (extract_zip home target ar fs) q)
    ∧ (∀ (fs1 fs2 : FS) (q : RPath), touchedBy (extract_writes home ar) q = true →
       FS.lookup (extract_zip home target ar fs1) q
         = FS.lookup (extract_zip home target ar fs2) q) := by
  constructor
  · intro fs q
    rw [extract_zip_eq_applyWrites, extract_zip_eq_applyWrites]
    by_cases ht : touchedBy (extract_writes home ar) q = true
    · exact lookup_applyWrites_touched ht _ _
    · have hf : touchedBy (extract_writes home ar) q = false := by simpa using ht
      rw [lookup_applyWrites_untouched hf]
  · intro fs1 fs2 q ht
    rw [extract_zip_eq_applyWrites, extract_zip_eq_applyWrites]
    exact lookup_applyWrites_touched ht _ _

/-- C4 witness: a concrete archive, idempotence and initial-state independence
at its single destination. -/
theorem c4_idempotent_replace_witness :
    touchedBy (extract_writes ⟨true, ["home", "u"]⟩
        [⟨"a.md", "X"⟩, ⟨"manifest.txt", "a.md=w/a\n"⟩])
      ⟨true, ["home", "u", "w", "a"]⟩ = true
    ∧ FS.lookup (extract_zip ⟨true, ["home", "u"]⟩ ⟨true, ["tmp"]⟩
        [⟨"a.md", "X"⟩, ⟨"manifest.txt", "a.md=w/a\n"⟩]
        [(⟨true, ["home", "u", "w", "a", "old"]⟩, "junk")])
      ⟨true, ["home", "u", "w", "a"]⟩
      = FS.lookup (extract_zip ⟨true, ["home", "u"]⟩ ⟨true, ["tmp"]⟩
        [⟨"a.md", "X"⟩, ⟨"manifest.txt", "a.md=w/a\n"⟩] [])
      ⟨true, ["home", "u", "w", "a"]⟩ :=
  ⟨by decide,
   (c4_idempotent_replace ⟨true, ["home", "u"]⟩ ⟨true, ["tmp"]⟩
      [⟨"a.md", "X"⟩, ⟨"manifest.txt", "a.md=w/a\n"⟩]).2
     [(⟨true, ["home", "u", "w", "a", "old"]⟩, "junk")] []
     ⟨true, ["home", "u", "w", "a"]⟩ (by decide)⟩

/-- C5: `extract_zip` writes exactly the entries that are not named
`manifest.txt` and that the parsed manifest maps (so the manifest entry itself
is never restored and unmapped entries are skipped), and a manifest line
containing no `=` is ignored without affecting the rest of the parse. -/
theorem c5_manifest_driven_writes (home : RPath) (ar : List ZipEntry) :
    (∀ (d : RPath) (c : String),
        (d, c) ∈ extract_writes home ar ↔
          ∃ e ∈ ar, e.name ≠ "manifest.txt" ∧
            ∃ o, alLookup (parseManifest (manifestContentOf ar)) e.name = some o ∧
              d = RPath.join home (parseRustPath o) ∧ c = e.content)
    ∧ (∀ (pre post : List String) (bad : String), ¬ '=' ∈ bad.data →
        parseManifestLines (pre ++ bad :: post) = parseManifestLines (pre ++ post)) := by
  constructor
  · intro d c
    unfold extract_writes
    rw [List.mem_filterMap]
    constructor
    · rintro ⟨e, he, hFe⟩
      refine ⟨e, he, ?_⟩
      unfold entryDest at hFe
      by_cases hm : e.name = "manifest.txt"
      · rw [if_pos hm] at hFe
        simp at hFe
      · rw [if_neg hm, Option.map_map] at hFe
        rcases Option.map_eq_some'.mp hFe with ⟨o, ho, hval⟩
        have hval2 : RPath.join home (parseRustPath o) = d ∧ e.content = c := by
          have := congrArg Prod.fst hval
          have h2 := congrArg Prod.snd hval
          exact ⟨this, h2⟩
        exact ⟨hm, o, ho, hval2.1.symm, hval2.2.symm⟩
    · rintro ⟨e, he, hm, o, ho, hd, hc⟩
      refine ⟨e, he, ?_⟩
      unfold entryDest
      rw [if_neg hm, ho]
      simp [hd, hc]
  · intro pre post bad hbad
    unfold parseManifestLines
    rw [List.foldl_append, List.foldl_append, List.foldl_cons]
    have hsplit : splitOnceEq bad = none := by
      unfold splitOnceEq
      rw [splitAtFirst_no_occ _ _ hbad]
      rfl
    rw [hsplit]

/-- C5 witness: in a concrete archive with an orphan entry, a malformed
manifest line and the manifest entry itself, exactly the mapped entry is
written; the malformed line does not change the parse. -/
theorem c5_manifest_driven_writes_witness :
    (⟨true, ["home", "u", "w", "a"]⟩, "X") ∈ extract_writes ⟨true, ["home", "u"]⟩
        [⟨"a.md", "X"⟩, ⟨"orphan.md", "O"⟩,
         ⟨"manifest.txt", "a.md=w/a\nnoequalsign\n"⟩]
    ∧ parseManifestLines (["a.md=w/a"] ++ "noequalsign" :: [])
        = parseManifestLines (["a.md=w/a"] ++ []) :=
  ⟨((c5_manifest_driven_writes ⟨true, ["home", "u"]⟩
      [⟨"a.md", "X"⟩, ⟨"orphan.md", "O"⟩,
       ⟨"manifest.txt", "a.md=w/a\nnoequalsign\n"⟩]).1
      ⟨true, ["home", "u", "w", "a"]⟩ "X").mpr
    ⟨⟨"a.md", "X"⟩, by decide, by decide, "w/a", by decide, by decide, by decide⟩,
   (c5_manifest_driven_writes ⟨true, ["home", "u"]⟩ []).2
     ["a.md=w/a"] [] "noequalsign" (by decide)⟩

/-- C6: `extract_zip` ignores its target-directory argument entirely; any two
target directories produce identical results on the same archive and state. -/
theorem c6_target_dir_ignored (home t1 t2 : RPath) (ar : List ZipEntry) (fs : FS) :
    extract_zip home t1 ar fs = extract_zip home t2 ar fs := rfl

/- ### C1: build-then-restore round trip -/

/-- C1: for skill files under the home directory with pairwise-distinct
owning-directory names — and well-formed, ancestor-incomparable paths, as the
paths of actual regular files are — building an archive with
`create_skills_zip` and restoring it with `extract_zip` recreates, for each
input file, a file at home joined with the file's home-relative path whose
bytes equal the original bytes. -/
theorem c1_round_trip (home target : RPath) (files : List SkillFile) (fs0 : FS)
    (hg : ∀ f ∈ files, goodPath f.path = true)
    (hunder : ∀ f ∈ files, underHome home f.path = true)
    (hnd : (files.map (fun f => skill_name_of f.path)).Nodup)
    (hinc : files.Pairwise (fun f g => incomparable f.path g.path = true)) :
    ∀ f ∈ files,
      FS.lookup (extract_zip home target (create_skills_zip home files) fs0)
        (RPath.join home (stripPrefixOr home f.path)) = some f.content := by
  intro f hf
  have hcase : ∀ g ∈ files, underHome home g.path = true ∨ g.path.abs = true :=
    fun g hg2 => Or.inl (hunder g hg2)
  rw [extract_zip_eq_applyWrites, extract_writes_create home files hg hcase hnd]
  rw [join_strip_of_under (hunder f hf)]
  apply lookup_applyWrites_of_mem
  · exact List.mem_map_of_mem _ hf
  · have h2 : (files.map (fun f => (f.path, f.content))).map Prod.fst
        = files.map (fun f => f.path) := by
      rw [List.map_map]
      rfl
    rw [h2]
    exact paths_nodup hnd
  · rw [List.pairwise_map]
    apply List.Pairwise.imp ?_ hinc
    intro a b hab
    simp only [incomparable, Bool.and_eq_true, Bool.not_eq_true'] at hab
    exact ⟨hab.1, hab.2⟩

/-- C1 witness: a concrete two-file round trip over a nonempty initial state. -/
theorem c1_round_trip_witness :
    FS.lookup (extract_zip ⟨true, ["home", "u"]⟩ ⟨true, ["tmp"]⟩
        (create_skills_zip ⟨true, ["home", "u"]⟩
          [⟨⟨true, ["home", "u", ".claude", "skills", "alpha", "SKILL.md"]⟩, "A"⟩,
           ⟨⟨true, ["home", "u", ".codex", "skills", "beta", "skill.md"]⟩, "B"⟩])
        [(⟨true, ["home", "u", ".claude", "skills", "alpha", "SKILL.md"]⟩, "stale")])
      (RPath.join ⟨true, ["home", "u"]⟩
        (stripPrefixOr ⟨true, ["home", "u"]⟩
          ⟨true, ["home", "u", ".claude", "skills", "alpha", "SKILL.md"]⟩))
      = some "A" :=
  c1_round_trip ⟨true, ["home", "u"]⟩ ⟨true, ["tmp"]⟩
    [⟨⟨true, ["home", "u", ".claude", "skills", "alpha", "SKILL.md"]⟩, "A"⟩,
     ⟨⟨true, ["home", "u", ".codex", "skills", "beta", "skill.md"]⟩, "B"⟩]
    [(⟨true, ["home", "u", ".claude", "skills", "alpha", "SKILL.md"]⟩, "stale")]
    (by decide) (by decide) (by decide) (by decide)
    ⟨⟨true, ["home", "u", ".claude", "skills", "alpha", "SKILL.md"]⟩, "A"⟩ (by decide)

/-- C10 counterexample: for a relative skill-file path outside the home
directory, the manifest records the path as given, and extraction restores the
entry at a path under the home directory, not at the file's original location;
so, as stated for every non-home file, the claim fails. -/
theorem c10_relative_restored_under_home :
    underHome c10home c10file.path = false
    ∧ extract_writes c10home (create_skills_zip c10home [c10file])
        = [(⟨true, ["home", "u", "w", "proj", "SKILL.md"]⟩, "X")]
    ∧ (⟨true, ["home", "u", "w", "proj", "SKILL.md"]⟩ : RPath) ≠ c10file.path
    ∧ underHome c10home ⟨true, ["home", "u", "w", "proj", "SKILL.md"]⟩ = true := by
  refine ⟨by decide, by decide, by decide, by decide⟩

/-- C10 (amended): for every skill file whose path is absolute and not under
the home directory, the builder records the full original path (forward-slash
rendered) as the manifest value, and extraction writes that entry back at its
original absolute location. -/
theorem c10_absolute_outside_home (home : RPath) (files : List SkillFile)
    (hg : ∀ f ∈ files, goodPath f.path = true)
    (hcase : ∀ f ∈ files, underHome home f.path = true ∨ f.path.abs = true)
    (hnd : (files.map (fun f => skill_name_of f.path)).Nodup) :
    ∀ f ∈ files, f.path.abs = true → underHome home f.path = false →
      alLookup (parseManifest (manifestContentOf (create_skills_zip home files)))
          (mdNameOf f) = some (manifestPathString f.path)
        ∧ (f.path, f.content) ∈ extract_writes home (create_skills_zip home files) := by
  intro f hf habs hunder
  constructor
  · have h2 := parseManifest_create home files hg hnd f hf
    rwa [stripPrefixOr, if_neg (by simp [hunder])] at h2
  · rw [extract_writes_create home files hg hcase hnd]
    exact List.mem_map_of_mem _ hf

/-- C10 amended-claim witness: a concrete absolute file outside home is
recorded with its full path and written back at its original location. -/
theorem c10_absolute_outside_home_witness :
    alLookup (parseManifest (manifestContentOf (create_skills_zip ⟨true, ["home", "u"]⟩
        [⟨⟨true, ["opt", "skills", "gamma", "SKILL.md"]⟩, "G"⟩])))
        (mdNameOf ⟨⟨true, ["opt", "skills", "gamma", "SKILL.md"]⟩, "G"⟩)
        = some (manifestPathString ⟨true, ["opt", "skills", "gamma", "SKILL.md"]⟩)
      ∧ ((⟨true, ["opt", "skills", "gamma", "SKILL.md"]⟩ : RPath), "G")
          ∈ extract_writes ⟨true, ["home", "u"]⟩ (create_skills_zip ⟨true, ["home", "u"]⟩
            [⟨⟨true, ["opt", "skills", "gamma", "SKILL.md"]⟩, "G"⟩]) :=
  c10_absolute_outside_home ⟨true, ["home", "u"]⟩
    [⟨⟨true, ["opt", "skills", "gamma", "SKILL.md"]⟩, "G"⟩]
    (by decide) (by decide) (by decide)
    ⟨⟨true, ["opt", "skills", "gamma", "SKILL.md"]⟩, "G"⟩ (by decide)
    (by decide) (by decide)

/-- C2 counterexample: the builder emits `foo_1.md` twice for the input owning
names `foo`, `foo`, `foo_1`, so entry names within one archive are not pairwise
distinct and the manifest mapping cannot be a bijection. -/
theorem c2_entry_names_not_unique :
    (create_skills_zip c2home c2files).map (fun e => e.name)
        = ["foo.md", "foo_1.md", "foo_1.md", "manifest.txt"]
      ∧ ¬ ((create_skills_zip c2home c2files).map (fun e => e.name)).Nodup := by
  exact ⟨by decide, by decide⟩

/-- C2 (amended): for well-formed skill files with pairwise-distinct
owning-directory names (each under home or at an absolute path), the archive's
non-manifest entry names are exactly the manifest keys in order, the keys are
pairwise distinct, and the recorded relative paths are pairwise distinct — the
manifest mapping is a bijection between entries and recorded paths. -/
theorem c2_bijective_of_distinct_names (home : RPath) (files : List SkillFile)
    (hg : ∀ f ∈ files, goodPath f.path = true)
    (hcase : ∀ f ∈ files, underHome home f.path = true ∨ f.path.abs = true)
    (hnd : (files.map (fun f => skill_name_of f.path)).Nodup) :
    (create_skills_zip home files).map (fun e => e.name)
        = (manifestPairsOf home files).map Prod.fst ++ ["manifest.txt"]
      ∧ ((manifestPairsOf home files).map Prod.fst).Nodup
      ∧ ((manifestPairsOf home files).map Prod.snd).Nodup := by
  have hfst : (manifestPairsOf home files).map Prod.fst = files.map mdNameOf := by
    rw [manifestPairsOf, List.map_map]
    rfl
  refine ⟨?_, ?_, ?_⟩
  · rw [create_char home files hnd, hfst, List.map_append, List.map_map]
    rfl
  · rw [hfst]
    exact mdNames_nodup hnd
  · have hsnd : (manifestPairsOf home files).map Prod.snd
        = files.map (fun f => manifestPathString (stripPrefixOr home f.path)) := by
      rw [manifestPairsOf, List.map_map]
      rfl
    rw [hsnd]
    have hpnames : files.Pairwise
        (fun f g => skill_name_of f.path ≠ skill_name_of g.path) :=
      List.pairwise_map.mp hnd
    have hpw : files.Pairwise (fun f g =>
        manifestPathString (stripPrefixOr home f.path)
          ≠ manifestPathString (stripPrefixOr home g.path)) := by
      apply List.Pairwise.imp_of_mem ?_ hpnames
      intro a b ha hb hne he
      apply hne
      rw [strip_inj (hcase a ha) (hcase b hb)
        (mps_inj (goodPath_strip (hg a ha)) (goodPath_strip (hg b hb)) he)]
    exact List.Pairwise.map _ (fun _ _ hab => hab) hpw

/-- C2 amended-claim witness: concrete distinct-name input with a bijective
manifest mapping. -/
theorem c2_bijective_witness :
    (create_skills_zip c2home [⟨⟨true, ["home", "u", "a", "foo", "SKILL.md"]⟩, "x"⟩,
        ⟨⟨true, ["home", "u", "b", "bar", "SKILL.md"]⟩, "y"⟩]).map (fun e => e.name)
        = (manifestPairsOf c2home [⟨⟨true, ["home", "u", "a", "foo", "SKILL.md"]⟩, "x"⟩,
            ⟨⟨true, ["home", "u", "b", "bar", "SKILL.md"]⟩, "y"⟩]).map Prod.fst
          ++ ["manifest.txt"]
      ∧ ((manifestPairsOf c2home [⟨⟨true, ["home", "u", "a", "foo", "SKILL.md"]⟩, "x"⟩,
            ⟨⟨true, ["home", "u", "b", "bar", "SKILL.md"]⟩, "y"⟩]).map Prod.fst).Nodup
      ∧ ((manifestPairsOf c2home [⟨⟨true, ["home", "u", "a", "foo", "SKILL.md"]⟩, "x"⟩,
            ⟨⟨true, ["home", "u", "b", "bar", "SKILL.md"]⟩, "y"⟩]).map Prod.snd).Nodup :=
  c2_bijective_of_distinct_names c2home
    [⟨⟨true, ["home", "u", "a", "foo", "SKILL.md"]⟩, "x"⟩,
     ⟨⟨true, ["home", "u", "b", "bar", "SKILL.md"]⟩, "y"⟩]
    (by decide) (by decide) (by decide)

theorem build_names_general (home : RPath) :
    ∀ (files : List SkillFile) (st : BuildState),
      ((files.foldl (addSkillFile home) st).entries).map (fun e => e.name)
        = (st.entries.map (fun e => e.name))
          ++ namesWith (fun n => countOf st.counts n) files
  | [], st => by simp [namesWith]
  | f :: rest, st => by
    rw [List.foldl_cons]
    rw [build_names_general home rest (addSkillFile home st f)]
    have hent : (addSkillFile home st f).entries
        = st.entries ++ [⟨entryNameFor (skill_name_of f.path)
            (countOf st.counts (skill_name_of f.path)), f.content⟩] := rfl
    have hcnt : (fun n => countOf (addSkillFile home st f).counts n)
        = (fun n => if n = skill_name_of f.path
            then countOf st.counts n + 1 else countOf st.counts n) := by
      funext n
      show countOf (bumpCount st.counts (skill_name_of f.path)) n = _
      by_cases hn : n = skill_name_of f.path
      · subst hn
        rw [if_pos rfl, countOf_bump_self]
      · rw [if_neg hn, countOf_bump_other _ _ _ (fun he => hn he.symm)]
    rw [hent, hcnt, List.map_append]
    simp [namesWith]

theorem namesWith_length :
    ∀ (files : List SkillFile) (cnt : String → Nat),
      (namesWith cnt files).length = files.length
  | [], _ => rfl
  | f :: rest, cnt => by
    simp [namesWith, namesWith_length rest]

theorem namesWith_getD :
    ∀ (files : List SkillFile) (cnt : String → Nat) (i : Nat), i < files.length →
      (namesWith cnt files).getD i ""
        = entryNameFor (skill_name_of ((files.getD i default).path))
            (cnt (skill_name_of ((files.getD i default).path))
              + ((files.take i).map (fun f => skill_name_of f.path)).count
                  (skill_name_of ((files.getD i default).path)))
  | [], _, i, h => by simp at h
  | f :: rest, cnt, 0, _ => by
    simp [namesWith]
  | f :: rest, cnt, i + 1, h => by
    have hi : i < rest.length := by simpa using h
    rw [show (namesWith cnt (f :: rest)).getD (i + 1) ""
      = (namesWith (fun n => if n = skill_name_of f.path then cnt n + 1 else cnt n)
          rest).getD i "" from rfl]
    rw [namesWith_getD rest _ i hi]
    rw [show ((f :: rest).getD (i + 1) default) = rest.getD i default from rfl]
    rw [show (f :: rest).take (i + 1) = f :: rest.take i from rfl]
    rw [List.map_cons]
    rw [List.count_cons]
    by_cases hn : skill_name_of ((rest.getD i default).path) = skill_name_of f.path
    · rw [if_pos hn, if_pos (by simp only [beq_iff_eq]; exact hn.symm)]
      congr 1
      omega
    · rw [if_neg hn, if_neg (by simp only [beq_iff_eq]; exact fun he => hn he.symm)]
      congr 1

/-- C3: in one `create_skills_zip` call, the i-th entry name is the i-th file's
owning name, plain `name.md` for a first occurrence and `name_k.md` for the
k-th repeat, where k counts earlier files with the same owning name. -/
theorem c3_collision_naming (home : RPath) (files : List SkillFile) (i : Nat)
    (h : i < files.length) :
    ((create_skills_zip home files).map (fun e => e.name)).getD i ""
      = expectedEntryName files i := by
  unfold create_skills_zip
  rw [List.map_append]
  rw [build_names_general home files ⟨[], [], []⟩]
  rw [show ((⟨[], [], []⟩ : BuildState).entries.map (fun e => e.name)) = [] from rfl]
  rw [List.nil_append]
  rw [List.getD_append _ _ _ _ (by rw [namesWith_length]; exact h)]
  rw [namesWith_getD files _ i h]
  unfold expectedEntryName
  simp [countOf]

/-- C3 witness: three files with owning name `foo` are packaged as `foo.md`,
`foo_1.md`, `foo_2.md`, in input order. -/
theorem c3_collision_naming_witness :
    ((create_skills_zip ⟨true, ["home", "u"]⟩
        [⟨⟨true, ["home", "u", "a", "foo", "SKILL.md"]⟩, "x"⟩,
         ⟨⟨true, ["home", "u", "b", "foo", "SKILL.md"]⟩, "y"⟩,
         ⟨⟨true, ["home", "u", "c", "foo", "SKILL.md"]⟩, "z"⟩]).map
      (fun e => e.name)).getD 2 ""
        = expectedEntryName
            [⟨⟨true, ["home", "u", "a", "foo", "SKILL.md"]⟩, "x"⟩,
             ⟨⟨true, ["home", "u", "b", "foo", "SKILL.md"]⟩, "y"⟩,
             ⟨⟨true, ["home", "u", "c", "foo", "SKILL.md"]⟩, "z"⟩] 2
      ∧ expectedEntryName
            [⟨⟨true, ["home", "u", "a", "foo", "SKILL.md"]⟩, "x"⟩,
             ⟨⟨true, ["home", "u", "b", "foo", "SKILL.md"]⟩, "y"⟩,
             ⟨⟨true, ["home", "u", "c", "foo", "SKILL.md"]⟩, "z"⟩] 2 = "foo_2.md"
      ∧ ((create_skills_zip ⟨true, ["home", "u"]⟩
            [⟨⟨true, ["home", "u", "a", "foo", "SKILL.md"]⟩, "x"⟩,
             ⟨⟨true, ["home", "u", "b", "foo", "SKILL.md"]⟩, "y"⟩,
             ⟨⟨true, ["home", "u", "c", "foo", "SKILL.md"]⟩, "z"⟩]).map
          (fun e => e.name))
          = ["foo.md", "foo_1.md", "foo_2.md", "manifest.txt"] :=
  ⟨c3_collision_naming ⟨true, ["home", "u"]⟩
      [⟨⟨true, ["home", "u", "a", "foo", "SKILL.md"]⟩, "x"⟩,
       ⟨⟨true, ["home", "u", "b", "foo", "SKILL.md"]⟩, "y"⟩,
       ⟨⟨true, ["home", "u", "c", "foo", "SKILL.md"]⟩, "z"⟩] 2 (by decide),
   by decide, by decide⟩

theorem findChild_mem : ∀ {cs : List (String × FTree)} {n : String} {t : FTree},
    findChild cs n = some t → (n, t) ∈ cs
  | [], _, _, h => by simp [findChild] at h
  | (n0, t0) :: rest, n, t, h => by
    by_cases he : n0 = n
    · subst he
      rw [findChild, if_pos rfl] at h
      rw [← Option.some.inj h]
      exact List.mem_cons_self _ _
    · rw [findChild, if_neg he] at h
      exact List.mem_cons_of_mem _ (findChild_mem h)

theorem nodupNames_head {n : String} {rest : List String}
    (h : nodupNames (n :: rest) = true) : ¬ n ∈ rest ∧ nodupNames rest = true := by
  rw [nodupNames, Bool.and_eq_true, Bool.not_eq_true'] at h
  exact ⟨by simpa using h.1, h.2⟩

theorem mem_findChild : ∀ {cs : List (String × FTree)} {n : String} {t : FTree},
    nodupNames (cs.map Prod.fst) = true → (n, t) ∈ cs → findChild cs n = some t
  | [], _, _, _, hm => by simp at hm
  | (n0, t0) :: rest, n, t, hnd, hm => by
    rw [List.map_cons] at hnd
    obtain ⟨hni, hnd2⟩ := nodupNames_head hnd
    rcases List.mem_cons.mp hm with he | he
    · rw [Prod.mk.injEq] at he
      rw [findChild, if_pos he.1.symm, he.2]
    · have hne : n0 ≠ n := by
        intro h2
        subst h2
        exact hni (by simpa using List.mem_map_of_mem Prod.fst he)
      rw [findChild, if_neg hne]
      exact mem_findChild hnd2 he

theorem extend_cons (base : RPath) (n : String) (s : List String) :
    RPath.extend base (n :: s) = RPath.extend (RPath.child base n) s := by
  simp [RPath.extend, RPath.child]

theorem mem_walkNode :
    ∀ (d : Nat) (t : FTree) (base p : RPath), wfTo d t = true →
      (p ∈ walkNode d base t ↔
        ∃ s : List String, s ≠ [] ∧ s.length ≤ d ∧ (nodeAt t s).isSome
          ∧ p = RPath.extend base s)
  | 0, t, base, p, _ => by
    rw [walkNode]
    simp only [List.not_mem_nil, false_iff]
    rintro ⟨s, hne, hlen, _, _⟩
    exact hne (List.length_eq_zero.mp (Nat.le_zero.mp hlen))
  | d + 1, .file c, base, p, _ => by
    rw [walkNode]
    simp only [List.not_mem_nil, false_iff]
    rintro ⟨s, hne, _, hsome, _⟩
    cases s with
    | nil => exact hne rfl
    | cons n s2 => simp [nodeAt] at hsome
  | d + 1, .dir cs, base, p, hwf => by
    rw [wfTo, Bool.and_eq_true, List.all_eq_true] at hwf
    obtain ⟨hnd, hall⟩ := hwf
    rw [walkNode]
    rw [List.mem_flatMap]
    constructor
    · rintro ⟨nt, hnt, hp⟩
      rcases List.mem_cons.mp hp with hp | hp
      · refine ⟨[nt.1], by simp, by simp, ?_, by simpa [RPath.extend, RPath.child] using hp⟩
        rw [nodeAt, mem_findChild hnd (by simpa using hnt)]
        simp [nodeAt]
      · have hwft := hall nt hnt
        obtain ⟨s2, hne2, hlen2, hsome2, rfl⟩ :=
          (mem_walkNode d nt.2 (RPath.child base nt.1) p hwft).mp hp
        refine ⟨nt.1 :: s2, by simp, by simpa using Nat.succ_le_succ hlen2, ?_,
          (extend_cons base nt.1 s2).symm⟩
        rw [nodeAt, mem_findChild hnd (by simpa using hnt)]
        simpa using hsome2
    · rintro ⟨s, hne, hlen, hsome, rfl⟩
      cases s with
      | nil => exact absurd rfl hne
      | cons n s2 =>
        rw [nodeAt] at hsome
        cases hfc : findChild cs n with
        | none => rw [hfc] at hsome; simp at hsome
        | some t2 =>
          rw [hfc] at hsome
          have hmem := findChild_mem hfc
          refine ⟨(n, t2), hmem, ?_⟩
          cases s2 with
          | nil =>
            apply List.mem_cons_self
          | cons m s3 =>
            apply List.mem_cons_of_mem
            rw [extend_cons]
            apply (mem_walkNode d t2 (RPath.child base n) _ (hall (n, t2) hmem)).mpr
            exact ⟨m :: s3, by simp, by simpa using Nat.le_of_succ_le_succ hlen, hsome, rfl⟩
  termination_by d => d

/-- C7 counterexample: the scan returns the path of the directory named
`SKILL.md`, which is not a file, so the scan result is not the set of matching
files. -/
theorem c7_scan_returns_directory :
    scan_skill_files [(⟨true, ["home", "u", ".claude", "skills"]⟩, some c7tree)]
        = [⟨true, ["home", "u", ".claude", "skills", "SKILL.md"]⟩]
      ∧ (nodeAt c7tree ["SKILL.md"]).map isFile = some false :=
  ⟨rfl, rfl⟩

/-- C7 (amended): over well-formed roots, the scan returns exactly the tree
entries — files or directories — lying 1 to 3 levels below each existing root
whose name is exactly `SKILL.md` or `skill.md`; results are grouped in root
order, and a missing root contributes nothing while later roots still do. -/
theorem c7_scan_characterization (roots : List (RPath × Option FTree))
    (hwf : ∀ r ∈ roots, ∀ t, r.2 = some t → wfTo 3 t = true) :
    (∀ p : RPath, p ∈ scan_skill_files roots ↔
        ∃ r ∈ roots, ∃ t, r.2 = some t ∧
          ∃ s : List String, s ≠ [] ∧ s.length ≤ 3 ∧ (nodeAt t s).isSome
            ∧ nameMatches (RPath.extend r.1 s) = true ∧ p = RPath.extend r.1 s)
    ∧ scan_skill_files roots = roots.flatMap (fun r => scan_skill_files [r])
    ∧ (∀ base : RPath, scan_skill_files [(base, none)] = []) := by
  refine ⟨?_, ?_, fun base => rfl⟩
  · intro p
    unfold scan_skill_files
    rw [List.mem_flatMap]
    constructor
    · rintro ⟨r, hr, hp⟩
      cases h2 : r.2 with
      | none => rw [h2] at hp; simp at hp
      | some t =>
        rw [h2] at hp
        obtain ⟨hpw, hpm⟩ := List.mem_filter.mp hp
        obtain ⟨s, hne, hlen, hsome, rfl⟩ :=
          (mem_walkNode 3 t r.1 p (hwf r hr t h2)).mp hpw
        exact ⟨r, hr, t, h2, s, hne, hlen, hsome, hpm, rfl⟩
    · rintro ⟨r, hr, t, h2, s, hne, hlen, hsome, hpm, rfl⟩
      refine ⟨r, hr, ?_⟩
      rw [h2]
      apply List.mem_filter.mpr
      refine ⟨?_, hpm⟩
      exact (mem_walkNode 3 t r.1 _ (hwf r hr t h2)).mpr ⟨s, hne, hlen, hsome, rfl⟩
  · clear hwf
    induction roots with
    | nil => rfl
    | cons r rest ih =>
      have h1 : scan_skill_files (r :: rest)
          = (match r.2 with
             | none => []
             | some t => (walkNode 3 r.1 t).filter nameMatches)
            ++ scan_skill_files rest := by
        unfold scan_skill_files
        rw [List.flatMap_cons]
      have h2 : scan_skill_files [r]
          = (match r.2 with
             | none => []
             | some t => (walkNode 3 r.1 t).filter nameMatches) := by
        unfold scan_skill_files
        rw [List.flatMap_cons]
        simp
      rw [List.flatMap_cons, h1, h2, ih]

/-- C7 amended-claim witness: a concrete two-root scan with a missing first
root, characterized through `nodeAt`, still returns the later root's file. -/
theorem c7_scan_characterization_witness :
    (⟨true, ["home", "u", ".codex", "skills", "beta", "skill.md"]⟩ : RPath)
        ∈ scan_skill_files
          [(⟨true, ["home", "u", ".claude", "skills"]⟩, none),
           (⟨true, ["home", "u", ".codex", "skills"]⟩,
            some (.dir [("beta", .dir [("skill.md", .file "B")])]))] :=
  ((c7_scan_characterization
      [(⟨true, ["home", "u", ".claude", "skills"]⟩, none),
       (⟨true, ["home", "u", ".codex", "skills"]⟩,
        some (.dir [("beta", .dir [("skill.md", .file "B")])]))]
      (by
        intro r hr t h2
        rcases List.mem_cons.mp hr with hr | hr
        · subst hr
          exact Option.noConfusion h2
        · rcases List.mem_cons.mp hr with hr | hr
          · subst hr
            rw [← Option.some.inj h2]
            decide
          · simp at hr)).1
    ⟨true, ["home", "u", ".codex", "skills", "beta", "skill.md"]⟩).mpr
    ⟨(⟨true, ["home", "u", ".codex", "skills"]⟩,
      some (.dir [("beta", .dir [("skill.md", .file "B")])])),
     List.mem_cons_of_mem _ (List.mem_cons_self _ _),
     .dir [("beta", .dir [("skill.md", .file "B")])], rfl,
     ["beta", "skill.md"], by simp, by decide, rfl, rfl, rfl⟩

/-- C8: with the server option unset, the program forwards `none` — no fixed
default endpoint is ever substituted for an absent server address. -/
theorem c8_no_default_server : server_used ⟨none⟩ = none := rfl

theorem firstPlain_le : ∀ (ls : List String) (d : String), firstPlain ls = some d →
    d.data.length ≤ 80
  | [], _, h => by simp [firstPlain] at h
  | l :: rest, d, h => by
    rw [firstPlain] at h
    by_cases hb : plainLineOk (trimChars l.data) = true
    · rw [if_pos hb] at h
      rw [← Option.some.inj h, data_mk, List.length_take]
      exact Nat.min_le_left _ _
    · rw [if_neg hb] at h
      exact firstPlain_le rest d h

/-- C9: the four description stages are tried strictly in order: a front-matter
description wins (collapsed and truncated to at most 100 characters); else the
heading pattern's first line; else the inline marker's; else the first eligible
plain line (at most 80 characters); else the fixed placeholder. -/
theorem c9_description_fallback_order (content : String) :
    (∀ d, stage_yaml content = some d →
        extract_description content = collapse_desc d
          ∧ (collapse_desc d).data.length ≤ 100)
    ∧ (stage_yaml content = none → ∀ d, stage_heading content = some d →
        extract_description content = d)
    ∧ (stage_yaml content = none → stage_heading content = none →
        ∀ d, stage_marker content = some d → extract_description content = d)
    ∧ (stage_yaml content = none → stage_heading content = none →
        stage_marker content = none → ∀ d, stage_plain content = some d →
        extract_description content = d ∧ d.data.length ≤ 80)
    ∧ (stage_yaml content = none → stage_heading content = none →
        stage_marker content = none → stage_plain content = none →
        extract_description content = "No description") := by
  refine ⟨?_, ?_, ?_, ?_, ?_⟩
  · intro d h
    refine ⟨by simp [extract_description, h], ?_⟩
    rw [collapse_desc, data_mk, List.length_take]
    exact Nat.min_le_left _ _
  · intro h0 d h1
    simp [extract_description, h0, h1]
  · intro h0 h1 d h2
    simp [extract_description, h0, h1, h2]
  · intro h0 h1 h2 d h3
    refine ⟨by simp [extract_description, h0, h1, h2, h3], ?_⟩
    exact firstPlain_le (rustLines content) d h3
  · intro h0 h1 h2 h3
    simp [extract_description, h0, h1, h2, h3]

/-- C9 witness: a file with no front matter, heading or marker falls through to
its first plain line, at most 80 characters. -/
theorem c9_description_fallback_order_witness :
    extract_description "Just a plain line." = "Just a plain line."
      ∧ ("Just a plain line." : String).data.length ≤ 80 :=
  (c9_description_fallback_order "Just a plain line.").2.2.2.1
    (by decide) (by decide) (by decide) "Just a plain line." (by decide)

end SkillsSync
